import Mathlib

/-!
Verification development for the ETL pipeline in `etl_pipeline.py`
(class `ETLPipeline`): content-type detection, per-type extraction,
schema inference, and normalization into a rectangular table.

Modelling conventions:
* Python values occurring in extracted records (JSON primitives, arrays,
  nested objects, `None`) are modelled by the инductive type `JVal`;
  Python `None` is `JVal.jnull`.
* Python dicts are modelled as insertion-ordered association lists
  (`Record`): assignment `d[k] = v` keeps the position of an existing key
  and appends a new key at the end, exactly like CPython dicts
  (see `setVal`).
* Raw document text is a `List Char`.  The regular-expression scans of
  `detect_content_types` are modelled by deterministic scanners that
  implement the leftmost, non-overlapping `re.findall` semantics of the
  concrete patterns of the source (each scanner is documented next to the
  pattern it implements).  Recursion that is not structural uses a fuel
  argument whose initial value (the input length) is provably sufficient;
  fuel-irrelevance lemmas are proved where universal claims need them.
* Python `set` iteration order is unspecified; wherever the source builds
  `list(set(...))` or iterates over a set, the model fixes the
  deterministic first-occurrence order (`dedupFirst`).  No claim proved
  below depends on that order.
* `json.loads` is modelled by `jsonLoads`, a recursive-descent parser for
  the JSON fragment relevant to this repository (null, booleans, integer
  numerals, strings with the simple escapes, arrays, objects).  Floating
  point numerals and `\u` escapes are not modelled.
* `BeautifulSoup` is an external library; the two values `extract_html`
  draws from it (title text and visible-text word count) are oracle
  parameters of the model, so every theorem involving them holds for all
  oracles.
-/

namespace ETL

mutual

/-- JSON-like runtime values held in extracted records.  `jnull` models
Python `None`.  Arrays and objects carry their own spine types (`JArr`,
`JObj`) so that all derived size functions stay computable. -/
inductive JVal where
  | jnull
  | jbool (b : Bool)
  | jnum (n : Int)
  | jstr (s : String)
  | jarr (elems : JArr)
  | jobj (fields : JObj)
  deriving DecidableEq

/-- The element spine of a JSON array. -/
inductive JArr where
  | nil
  | cons (hd : JVal) (tl : JArr)
  deriving DecidableEq

/-- The field spine of a JSON object: an insertion-ordered dict. -/
inductive JObj where
  | nil
  | cons (k : String) (v : JVal) (tl : JObj)
  deriving DecidableEq

end

/-- The fields of an object as an ordinary association list. -/
def JObj.toList : JObj → List (String × JVal)
  | .nil => []
  | .cons k v tl => (k, v) :: tl.toList

mutual

/-- Structural size of a value (used as recursion fuel). -/
def JVal.size : JVal → Nat
  | .jarr es => 1 + es.size
  | .jobj fs => 1 + fs.size
  | _ => 1

/-- Structural size of an array spine. -/
def JArr.size : JArr → Nat
  | .nil => 1
  | .cons v tl => 1 + v.size + tl.size

/-- Structural size of an object spine. -/
def JObj.size : JObj → Nat
  | .nil => 1
  | .cons _ v tl => 1 + v.size + tl.size

end

/-- A record: a Python dict from field name to value, modelled as an
insertion-ordered association list. -/
abbrev Record := List (String × JVal)

/-- Dict lookup: `d.get(k)` returning `none` when the key is absent. -/
def rlookup : Record → String → Option JVal
  | [], _ => none
  | (k', v) :: rest, k => if k' = k then some v else rlookup rest k

/-- Dict assignment `d[k] = v`: an existing key keeps its position and
gets the new value, a new key is appended at the end (CPython dict
semantics). -/
def setVal : Record → String → JVal → Record
  | [], k, v => [(k, v)]
  | (k', v') :: rest, k, v =>
    if k' = k then (k, v) :: rest else (k', v') :: setVal rest k v

/-- The keys of a record, in insertion order. -/
def recordKeys (r : Record) : List String := r.map Prod.fst

/-- `item.get(key)` as used by `infer_schema`: missing key and stored
`None` both read back as `None`. -/
def pyGet (r : Record) (k : String) : JVal := (rlookup r k).getD JVal.jnull

/-- `dict(items)`: builds a dict from a list of pairs; a repeated key
keeps its first position and takes its last value. -/
def dictOfItems (items : List (String × JVal)) : Record :=
  items.foldl (fun acc p => setVal acc p.1 p.2) []

/-- Dict assignment on an object spine, with the same CPython
semantics as `setVal`. -/
def setValO : JObj → String → JVal → JObj
  | .nil, k, v => .cons k v .nil
  | .cons k' v' tl, k, v =>
    if k' = k then .cons k v tl else .cons k' v' (setValO tl k v)

/-- Build an object from parsed members with CPython dict semantics. -/
def JObj.ofItems (items : List (String × JVal)) : JObj :=
  items.foldl (fun acc p => setValO acc p.1 p.2) .nil

/-- `type(v).__name__` for the modelled runtime values. -/
def pyTypeName : JVal → String
  | .jnull => "NoneType"
  | .jbool _ => "bool"
  | .jnum _ => "int"
  | .jstr _ => "str"
  | .jarr _ => "list"
  | .jobj _ => "dict"

/-- Order-preserving deduplication: models the contents of a Python set
materialised as a list, with the (unspecified) iteration order fixed to
first occurrence. -/
def dedupFirst {α : Type} [DecidableEq α] (l : List α) : List α :=
  l.foldl (fun acc x => if x ∈ acc then acc else acc ++ [x]) []

/-- Python string `strip()` whitespace. -/
def pyIsWs (c : Char) : Bool :=
  c = ' ' || c = '\t' || c = '\n' || c = '\r' || c = '\x0b' || c = '\x0c'

/-- Python `s.strip()`. -/
def pyStrip (l : List Char) : List Char :=
  ((l.dropWhile pyIsWs).reverse.dropWhile pyIsWs).reverse

/-- Python `s.split('\n')`: always yields at least one piece. -/
def splitNl : List Char → List (List Char)
  | [] => [[]]
  | c :: r =>
    if c = '\n' then [] :: splitNl r
    else
      match splitNl r with
      | p :: ps => (c :: p) :: ps
      | [] => [[c]]

/-- Python `s.split()` word count: number of maximal runs of
non-whitespace characters. -/
def countWords : List Char → Nat
  | [] => 0
  | c :: r =>
    if pyIsWs c then countWords r else 1 + countWordsIn r
where
  /-- Consume the rest of the current word. -/
  countWordsIn : List Char → Nat
  | [] => 0
  | c :: r => if pyIsWs c then countWords r else countWordsIn r

/-- Does `l` start with the literal `pat` (case sensitive)? -/
def startsWith : List Char → List Char → Bool
  | [], _ => true
  | _ :: _, [] => false
  | p :: ps, c :: cs => p = c && startsWith ps cs

/-- Does `l` start with the literal `pat`, comparing case-insensitively
(pattern given in lower case)?  Models `re.IGNORECASE` on the literal
parts of the HTML patterns. -/
def startsWithCI : List Char → List Char → Bool
  | [], _ => true
  | _ :: _, [] => false
  | p :: ps, c :: cs => p = c.toLower && startsWithCI ps cs

/-- One step of Python `content.replace(old, '')` (removal of every
non-overlapping occurrence of `old`, scanning left to right).  Fuel is
the length of the scanned text, which suffices because every step
consumes at least one character when `old` is non-empty (every string
removed by the pipeline is non-empty). -/
def removeAllAux : Nat → List Char → List Char → List Char
  | 0, _, _ => []
  | _, [], _ => []
  | fuel + 1, s@(c :: rest), old =>
    if startsWith old s then removeAllAux fuel (s.drop old.length) old
    else c :: removeAllAux fuel rest old

/-- Python `content.replace(old, '')`. -/
def removeAll (content old : List Char) : List Char :=
  removeAllAux content.length content old

/-- Code-point comparison of strings, as Python `<` on `str`. -/
def charListLt : List Char → List Char → Bool
  | [], [] => false
  | [], _ :: _ => true
  | _ :: _, [] => false
  | a :: as', b :: bs =>
    if a < b then true else if b < a then false else charListLt as' bs

/-- Python `a < b` on strings. -/
def pyStrLt (a b : String) : Bool := charListLt a.data b.data

/-- Insert into a sorted list (Python `sorted`, stable; the column lists
sorted by the pipeline are duplicate-free). -/
def insertSorted (x : String) : List String → List String
  | [] => [x]
  | y :: ys => if pyStrLt x y then x :: y :: ys else y :: insertSorted x ys

/-- Python `sorted` on a list of strings. -/
def sortStrings (l : List String) : List String := l.foldr insertSorted []

/-!
### Segmenter (`detect_content_types`)

JSON detection uses the pattern `\{(?:[^{}]|(?:\{[^{}]*\}))*\}` with
`re.findall`.  The backtracking engine behaves deterministically on this
pattern: starting after an opening brace, the alternation consumes
non-brace characters, a nested `\{[^{}]*\}` block closes one inner brace
pair, a second-level opening brace or the end of input makes the whole
attempt fail (every backtracking continuation also fails, because no
alternative of the loop consumes a closing brace), and the first
top-level closing brace ends the match.  `scanBody` implements exactly
that walk; `deep` records whether the scan is inside a nested block.
-/

/-- The walk of the JSON pattern after its opening brace: returns the
consumed characters (ending with the matched top-level closing brace)
and the rest of the input, or `none` when the attempt fails. -/
def scanBody : List Char → Bool → Option (List Char × List Char)
  | [], _ => none
  | c :: rest, deep =>
    if c = '\x7d' then
      if deep then (scanBody rest false).map (fun p => (c :: p.1, p.2))
      else some ([c], rest)
    else if c = '\x7b' then
      if deep then none
      else (scanBody rest true).map (fun p => (c :: p.1, p.2))
    else (scanBody rest deep).map (fun p => (c :: p.1, p.2))

/-- `re.findall` of the JSON pattern: scan left to right; at an opening
brace attempt `scanBody`; on success emit the match and resume after it,
on failure resume at the next character.  Fuel is the input length,
which suffices because a successful match consumes at least one
character. -/
def jsonFindallAux : Nat → List Char → List (List Char)
  | 0, _ => []
  | _, [] => []
  | fuel + 1, c :: rest =>
    if c = '\x7b' then
      match scanBody rest false with
      | some (m, rest') => ('\x7b' :: m) :: jsonFindallAux fuel rest'
      | none => jsonFindallAux fuel rest
    else jsonFindallAux fuel rest

/-- All matches of the JSON pattern in the document. -/
def jsonFindall (l : List Char) : List (List Char) := jsonFindallAux l.length l

/-!
HTML detection applies five patterns of the shape
`<open[^>]*>.*?</close>` with `re.DOTALL | re.IGNORECASE`.  For such a
pattern the engine is again deterministic: after the literal opening,
`[^>]*` runs to the first `>` (shortening it can never help, since the
following `>` would then face a non-`>` character), and the lazy `.*?`
stops at the earliest case-insensitive occurrence of the closing
literal.  On failure `findall` retries from the next character; on
success it resumes after the match.
-/

/-- Consume `[^>]*>` : characters up to and including the first `>`. -/
def scanToGt : List Char → Option (List Char × List Char)
  | [] => none
  | c :: rest =>
    if c = '>' then some ([c], rest)
    else (scanToGt rest).map (fun p => (c :: p.1, p.2))

/-- Lazy `.*?lit` (case-insensitive literal): the consumed characters up
to and including the earliest occurrence of `lit`, and the rest. -/
def lazyUptoCI : List Char → List Char → Option (List Char × List Char)
  | lit, l =>
    if startsWithCI lit l then some (l.take lit.length, l.drop lit.length)
    else
      match l with
      | [] => none
      | c :: r => (lazyUptoCI lit r).map (fun p => (c :: p.1, p.2))

/-- `re.findall` for one HTML pattern `<pre[^>]*>.*?suf` (pattern
literals given in lower case, matching case-insensitively). -/
def findTagAux : Nat → List Char → List Char → List Char → List (List Char)
  | 0, _, _, _ => []
  | _, _, _, [] => []
  | fuel + 1, pre, suf, l@(_ :: tl) =>
    if startsWithCI pre l then
      match scanToGt (l.drop pre.length) with
      | some (mid1, rest1) =>
        match lazyUptoCI suf rest1 with
        | some (mid2, rest2) =>
          (l.take pre.length ++ mid1 ++ mid2) :: findTagAux fuel pre suf rest2
        | none => findTagAux fuel pre suf tl
      | none => findTagAux fuel pre suf tl
    else findTagAux fuel pre suf tl

/-- All matches of one HTML pattern in the document. -/
def findTag (pre suf l : List Char) : List (List Char) :=
  findTagAux l.length pre suf l

/-- The five HTML pattern matches of `detect_content_types`, concatenated
and then deduplicated (`list(set(...))`, iteration order fixed to first
occurrence). -/
def detectHtml (content : List Char) : List (List Char) :=
  dedupFirst
    (findTag "<html".data "</html>".data content
      ++ findTag "<!doctype".data "</html>".data content
      ++ findTag "<div".data "</div>".data content
      ++ findTag "<p".data "</p>".data content
      ++ findTag "<body".data "</body>".data content)

/-- Is `c` in the base64 alphabet without padding (`[A-Za-z0-9+/]`)? -/
def isB64Char (c : Char) : Bool :=
  ('A' ≤ c && c ≤ 'Z') || ('a' ≤ c && c ≤ 'z') || ('0' ≤ c && c ≤ '9')
    || c = '+' || c = '/'

/-- Is `c` in the padded alphabet (`[A-Za-z0-9+/=]`)? -/
def isB64EqChar (c : Char) : Bool := isB64Char c || c = '='

/-- Consume `[^;]+;` : at least one non-`;` character up to and
including the first `;`. -/
def scanToSemi : List Char → Option (List Char)
  | [] => none
  | c :: rest =>
    if c = ';' then none
    else
      match rest with
      | ';' :: r => some r
      | _ => scanToSemi rest

/-- `re.findall` for `data:KIND/[^;]+;base64,([A-Za-z0-9+/=]+)`
(case sensitive).  Returns the captured groups.  The first `;` must be
followed by the literal `base64,` (the character class of `[^;]+`
excludes `;`, so no other split can succeed). -/
def findUriAux : Nat → List Char → List Char → List (List Char)
  | 0, _, _ => []
  | _, _, [] => []
  | fuel + 1, pre, l@(_ :: tl) =>
    if startsWith pre l then
      match scanToSemi (l.drop pre.length) with
      | some afterSemi =>
        if startsWith "base64,".data afterSemi then
          let body := afterSemi.drop 7
          let grp := body.takeWhile isB64EqChar
          if grp.isEmpty then findUriAux fuel pre tl
          else grp :: findUriAux fuel pre (body.dropWhile isB64EqChar)
        else findUriAux fuel pre tl
      | none => findUriAux fuel pre tl
    else findUriAux fuel pre tl

/-- The data-URI base64 matches for one media kind. -/
def findUri (kind content : List Char) : List (List Char) :=
  findUriAux content.length ("data:".data ++ kind ++ "/".data) content

/-- `re.findall` for the generic pattern `([A-Za-z0-9+/]{64,}={0,2})`:
at a position, the greedy class takes the maximal alphabet run; a run of
at least 64 characters plus up to two `=` signs is a match; otherwise
scanning resumes one character later. -/
def findGenericB64Aux : Nat → List Char → List (List Char)
  | 0, _ => []
  | _, [] => []
  | fuel + 1, l@(_ :: tl) =>
    let run := l.takeWhile isB64Char
    if 64 ≤ run.length then
      let afterRun := l.drop run.length
      let eqs := (afterRun.takeWhile (· = '=')).take 2
      (run ++ eqs) :: findGenericB64Aux fuel (afterRun.drop eqs.length)
    else findGenericB64Aux fuel tl

/-- All generic base64 matches. -/
def findGenericB64 (content : List Char) : List (List Char) :=
  findGenericB64Aux content.length content

/-- The base64 span list: three patterns concatenated, then
`list(set(...))` with first-occurrence order. -/
def detectBase64 (content : List Char) : List (List Char) :=
  dedupFirst
    (findUri "image".data content ++ findUri "text".data content
      ++ findGenericB64 content)

/-!
### Model of `json.loads`

Recursive-descent parser for the JSON fragment used by this repository:
`null`, `true`, `false`, integer numerals, strings with the simple
escapes, arrays and objects.  The model is sound for `json.loads`: it
enforces the checks the library performs on this fragment — numerals
may not carry a redundant leading zero, strings may not contain raw
control characters (code points below 32, rejected by the default
strict mode), invalid escapes fail — so every input the model accepts
is accepted by `json.loads` with the same value.  Floating point
numerals and `\u` escapes are not modelled (a numeral followed by `.`,
`e` or `E` is rejected, as is a `\u` escape): the model fails where
`json.loads` would succeed only on those two forms, which narrows the
hypothesis domain of the theorems quantifying over valid documents but
never asserts validity that `json.loads` would deny.  Object fields are
accumulated with CPython dict semantics (first position, last value).
The fuel argument only bounds the recursion depth and the number of
loop iterations; every parser step first consumes at least one
character, so `length + 1` fuel always suffices.
-/

/-- JSON whitespace. -/
def jsonWs (c : Char) : Bool := c = ' ' || c = '\t' || c = '\n' || c = '\r'

/-- Skip JSON whitespace. -/
def skipWs (l : List Char) : List Char := l.dropWhile jsonWs

/-- Parse the body of a string literal after the opening quote; returns
the decoded characters and the rest after the closing quote.  A raw
control character (code point below 32) fails, as in the default strict
mode of `json.loads`. -/
def parseStrBody : List Char → Option (List Char × List Char)
  | [] => none
  | '"' :: rest => some ([], rest)
  | '\\' :: e :: rest =>
    ((match e with
      | '"' => some '"'
      | '\\' => some '\\'
      | '/' => some '/'
      | 'n' => some '\n'
      | 't' => some '\t'
      | 'r' => some '\r'
      | 'b' => some '\x08'
      | 'f' => some '\x0c'
      | _ => none : Option Char)).bind
      (fun d => (parseStrBody rest).map (fun p => (d :: p.1, p.2)))
  | '\\' :: [] => none
  | c :: rest =>
    if c.toNat < 32 then none
    else (parseStrBody rest).map (fun p => (c :: p.1, p.2))

/-- Parse a non-empty digit run into its value. -/
def parseDigits (l : List Char) : Option (Nat × List Char) :=
  let ds := l.takeWhile Char.isDigit
  if ds.isEmpty then none
  else some (ds.foldl (fun acc c => 10 * acc + (c.toNat - 48)) 0,
             l.dropWhile Char.isDigit)

/-- Does the digit run at the head of `l` start with a redundant
leading zero?  The JSON grammar (enforced by `json.loads`) allows `0`
itself but forbids numerals such as `01`. -/
def hasLeadingZero (l : List Char) : Bool :=
  match l.takeWhile Char.isDigit with
  | '0' :: _ :: _ => true
  | _ => false

/-- Parse an integer numeral (optional minus sign); rejects a redundant
leading zero as `json.loads` does, and rejects a following `.`, `e` or
`E`, since floating point is not modelled. -/
def parseIntNum (l : List Char) : Option (Int × List Char) :=
  match l with
  | '-' :: rest =>
    if hasLeadingZero rest then none
    else
      (parseDigits rest).bind fun p =>
        match p.2 with
        | '.' :: _ => none
        | 'e' :: _ => none
        | 'E' :: _ => none
        | r => some (-(p.1 : Int), r)
  | _ =>
    if hasLeadingZero l then none
    else
      (parseDigits l).bind fun p =>
        match p.2 with
        | '.' :: _ => none
        | 'e' :: _ => none
        | 'E' :: _ => none
        | r => some ((p.1 : Int), r)

mutual

/-- Parse one JSON value (leading whitespace allowed). -/
def parseVal : Nat → List Char → Option (JVal × List Char)
  | 0, _ => none
  | fuel + 1, l =>
    match skipWs l with
    | [] => none
    | 'n' :: rest =>
      if startsWith "ull".data rest then some (.jnull, rest.drop 3) else none
    | 't' :: rest =>
      if startsWith "rue".data rest then some (.jbool true, rest.drop 3)
      else none
    | 'f' :: rest =>
      if startsWith "alse".data rest then some (.jbool false, rest.drop 4)
      else none
    | '"' :: rest =>
      (parseStrBody rest).map (fun p => (.jstr (String.mk p.1), p.2))
    | '[' :: rest =>
      (match skipWs rest with
        | ']' :: r => some (.jarr .nil, r)
        | r => (parseElems fuel r).map (fun p => (.jarr p.1, p.2)))
    | '\x7b' :: rest =>
      (match skipWs rest with
        | '\x7d' :: r => some (.jobj .nil, r)
        | r => (parseMembers fuel r).map
            (fun p => (.jobj (JObj.ofItems p.1), p.2)))
    | l' => (parseIntNum l').map (fun p => (.jnum p.1, p.2))

/-- Parse a comma-separated list of values up to the closing `]`. -/
def parseElems : Nat → List Char → Option (JArr × List Char)
  | 0, _ => none
  | fuel + 1, l =>
    (parseVal fuel l).bind fun p =>
      match skipWs p.2 with
      | ',' :: r => (parseElems fuel r).map (fun q => (JArr.cons p.1 q.1, q.2))
      | ']' :: r => some (JArr.cons p.1 .nil, r)
      | _ => none

/-- Parse a comma-separated list of `"key": value` members up to the
closing brace. -/
def parseMembers : Nat → List Char → Option (List (String × JVal) × List Char)
  | 0, _ => none
  | fuel + 1, l =>
    match skipWs l with
    | '"' :: rest =>
      (parseStrBody rest).bind fun kp =>
        match skipWs kp.2 with
        | ':' :: r =>
          (parseVal fuel r).bind fun p =>
            match skipWs p.2 with
            | ',' :: r' =>
              (parseMembers fuel r').map
                (fun q => ((String.mk kp.1, p.1) :: q.1, q.2))
            | '\x7d' :: r' => some ([(String.mk kp.1, p.1)], r')
            | _ => none
        | _ => none
    | _ => none

end

/-- `json.loads`: parse one value and require only whitespace after it. -/
def jsonLoads (l : List Char) : Option JVal :=
  (parseVal (l.length + 1) l).bind fun p =>
    if (skipWs p.2).isEmpty then some p.1 else none

/-- The JSON span list of `detect_content_types`: every regex match that
`json.loads` accepts, first occurrence kept, later identical strings
skipped. -/
def detectJson (ms : List (List Char)) : List (List Char) :=
  ms.foldl
    (fun acc m =>
      if (jsonLoads m).isSome then
        if m ∈ acc then acc else acc ++ [m]
      else acc)
    []

/-- The residual text spans: remove every detected HTML span string and
every detected JSON span string (all occurrences, as `str.replace`),
split on newlines, strip each line, keep the non-blank lines longer than
five characters. -/
def detectText (content : List Char) (html json : List (List Char)) :
    List (List Char) :=
  let r1 := html.foldl removeAll content
  let r2 := json.foldl removeAll r1
  ((splitNl r2).map pyStrip).filter (fun p => !p.isEmpty && 5 < p.length)

/-- The four span lists produced by `detect_content_types`. -/
structure Detected where
  html : List (List Char)
  json : List (List Char)
  text : List (List Char)
  base64 : List (List Char)
  deriving DecidableEq

/-- `detect_content_types`. -/
def detect_content_types (content : List Char) : Detected :=
  let html := detectHtml content
  let json := detectJson (jsonFindall content)
  let base64 := detectBase64 content
  let text := detectText content html json
  ⟨html, json, text, base64⟩

/-!
### Extractors
-/

/-- `parent_key + sep + k` with the empty parent special case of
`flatten_dict` (separator fixed to `_` as at every call site). -/
def mkKey (parent k : String) : String :=
  if parent = "" then k else parent ++ "_" ++ k

/-- The `items` list built by `flatten_dict`: for every field, a nested
object recurses with the `_`-joined path, any other value (including a
list) is appended verbatim under its joined key.  The fuel argument is
any bound on the structural size of the object; every recursive call
strictly shrinks the structure, so `sizeOf` fuel always suffices
(`flattenItemsF_fuel` below). -/
def flattenItemsF : Nat → JObj → String → List (String × JVal)
  | 0, _, _ => []
  | _, .nil, _ => []
  | fuel + 1, .cons k v rest, parent =>
    (match v with
      | .jobj inner => flattenItemsF fuel inner (mkKey parent k)
      | _ => [(mkKey parent k, v)]) ++ flattenItemsF fuel rest parent

/-- The `items` list built by `flatten_dict d parent`. -/
def flattenItems (d : JObj) (parent : String) : List (String × JVal) :=
  flattenItemsF d.size d parent

/-- `flatten_dict(d)`: flatten the items and rebuild a dict
(`dict(items)`). -/
def flatten_dict (d : JObj) : Record :=
  dictOfItems (flattenItems d "")

/-- `extract_json`: parse the span and flatten it, then set
`type = "json"`; any failure (parse failure, or a non-dict value, whose
`flatten_dict` call would raise) produces the degraded record. -/
def extract_json (s : List Char) : Record :=
  match jsonLoads s with
  | some (.jobj fs) => setVal (flatten_dict fs) "type" (.jstr "json")
  | _ =>
    [("type", .jstr "json"), ("error", .jstr "Invalid JSON"),
     ("raw", .jstr (String.mk (s.take 100)))]

/-- `extract_html`: the title string and visible-text word count come
from BeautifulSoup, an external library, and are supplied as oracle
parameters (`tOra s` models `soup.title.string if soup.title else ''`,
`wOra s` models `len(soup.get_text().split())`). -/
def extract_html (tOra : List Char → JVal) (wOra : List Char → Nat)
    (s : List Char) : Record :=
  [("type", .jstr "html"), ("title", tOra s),
   ("word_count", .jnum (Int.ofNat (wOra s)))]

/-- `extract_text`. -/
def extract_text (s : List Char) : Record :=
  [("type", .jstr "text"),
   ("title", .jstr (String.mk (if 50 < s.length then s.take 50 else s))),
   ("word_count", .jnum (Int.ofNat (countWords s)))]

/-- `extract_media`: fixed placeholder record. -/
def extract_media (_s : List Char) : Record :=
  [("type", .jstr "media"), ("title", .jstr "Base64 Media"),
   ("word_count", .jnum 0)]

/-- Assign `source_index` as `"{tag}_{idx}"` over one detected list
(`for idx, x in enumerate(...)` followed by
`extracted['source_index'] = ...`). -/
def withIndices (tag : String) (recs : List Record) : List Record :=
  recs.enum.map
    (fun p => setVal p.2 "source_index" (.jstr (tag ++ "_" ++ toString p.1)))

/-- `extract`: the records appended to `extracted_data`, in the order
html, json, text, media. -/
def extract (tOra : List Char → JVal) (wOra : List Char → Nat)
    (content : List Char) : List Record :=
  let d := detect_content_types content
  withIndices "html" (d.html.map (extract_html tOra wOra))
    ++ withIndices "json" (d.json.map extract_json)
    ++ withIndices "text" (d.text.map extract_text)
    ++ withIndices "media" (d.base64.map extract_media)

/-!
### Schema inference (`infer_schema`)

`all_keys` is a Python set; the model fixes its iteration order to first
occurrence over the record list.  Every property proved about the schema
below is independent of that order.
-/

/-- The union of all record keys, in first-occurrence order. -/
def allKeys (data : List Record) : List String :=
  dedupFirst (data.flatMap recordKeys)

/-- One field descriptor of the inferred schema. -/
structure SchemaEntry where
  typeNames : List String
  nullable : Bool
  presentIn : Nat
  deriving DecidableEq

/-- `sum(1 for item in data if key in item)`. -/
def presentCount (data : List Record) (k : String) : Nat :=
  data.countP (fun r => (rlookup r k).isSome)

/-- `any(v is None for v in [item.get(key) for item in data])`: true when
some record omits the key or holds an explicit null. -/
def nullableB (data : List Record) (k : String) : Bool :=
  data.any (fun r =>
    match rlookup r k with
    | some .jnull => true
    | none => true
    | some _ => false)

/-- `set(type(v).__name__ for v in values if v is not None)` as a
first-occurrence-ordered list. -/
def typeNamesOf (data : List Record) (k : String) : List String :=
  dedupFirst
    (((data.filterMap (fun r => rlookup r k)).filter
        (fun v => match v with | .jnull => false | _ => true)).map pyTypeName)

/-- The schema entry computed for one key. -/
def schemaEntry (data : List Record) (k : String) : SchemaEntry :=
  let ts := typeNamesOf data k
  ⟨if ts.isEmpty then ["NoneType"] else ts, nullableB data k,
   presentCount data k⟩

/-- The full schema map built by `infer_schema` (fresh run: the schema
dict starts empty). -/
def inferSchemaMap (data : List Record) : List (String × SchemaEntry) :=
  (allKeys data).map (fun k => (k, schemaEntry data k))

/-- The fill-forward of `infer_schema`: `item[key] = None` for every
known key the record lacks, in key order. -/
def fillRecord (ks : List String) (r : Record) : Record :=
  ks.foldl
    (fun acc k => if (rlookup acc k).isSome then acc else acc ++ [(k, .jnull)])
    r

/-- All records after the fill-forward. -/
def fillAll (data : List Record) : List Record :=
  data.map (fillRecord (allKeys data))

/-!
### Normalizer (`normalize`)

The result table keeps its rows as records; a cell of a row at a column
is read with `pyGet` (a key the row record lacks reads as null, modelling
the `NaN` produced by the outer-join concatenation).  `normalize` returns
`none` exactly when the source would raise a `KeyError`: selecting
`cols_to_keep` on a bucket table requires the `type` and `source_index`
columns to exist in that bucket.
-/

/-- The final rectangular table. -/
structure Table where
  cols : List String
  rows : List Record
  deriving DecidableEq

/-- Strip the extraction artifacts `word_count` and `title` from a copy
of one record. -/
def cleanRecord (r : Record) : Record :=
  r.filter (fun kv => kv.1 ≠ "word_count" && kv.1 ≠ "title")

/-- Does `record.get('type', 'unknown')` equal the tag `s`?  A non-string
type value never equals a string tag. -/
def isTypeTag (r : Record) (s : String) : Bool :=
  match rlookup r "type" with
  | some (.jstr t) => t = s
  | some _ => false
  | none => "unknown" = s

/-- The fixed processing order of the known type tags. -/
def tagOrder : List String := ["html", "json", "text", "media"]

/-- The bucket of one tag: the records grouped under it, in input
order. -/
def bucketFor (cleaned : List Record) (s : String) : List Record :=
  cleaned.filter (fun r => isTypeTag r s)

/-- The columns of `pd.DataFrame(bucket)`: the union of the record keys
in first-occurrence order. -/
def bucketCols (b : List Record) : List String :=
  dedupFirst (b.flatMap recordKeys)

/-- `cols_to_keep` of one bucket: core fields first, then the remaining
bucket columns in their order of appearance. -/
def bucketKeep (b : List Record) : List String :=
  ["type", "source_index"]
    ++ (bucketCols b).filter (fun c => c ≠ "type" && c ≠ "source_index")

/-- `pd.to_numeric(..., errors='coerce').fillna(0).astype(int)` on a
cell.  The cell this is applied to was just overwritten with the integer
row count, so only the integer case is reachable; any other value
coerces to 0. -/
def toNumericInt : JVal → JVal
  | .jnum n => .jnum n
  | _ => .jnum 0

/-- The nonempty per-tag buckets of `normalize`, in fixed tag order
(`grouped_by_type` restricted to the four known tags; a record whose
type value is none of them lands in no bucket). -/
def nzBuckets (data : List Record) : List (List Record) :=
  (tagOrder.map (bucketFor (data.map cleanRecord))).filter (fun b => !b.isEmpty)

/-- Can every bucket table be column-selected with the core fields
first?  `type_df[cols_to_keep]` raises a `KeyError` when a core column
is missing from a bucket. -/
def nzGuard (data : List Record) : Bool :=
  (nzBuckets data).all
    (fun b => "type" ∈ bucketCols b && "source_index" ∈ bucketCols b)

/-- The rows of the concatenated table, in bucket order. -/
def nzRows0 (data : List Record) : List Record :=
  (nzBuckets data).flatMap id

/-- The columns after `pd.concat` (first-occurrence union of the
per-bucket `cols_to_keep`). -/
def nzCols0 (data : List Record) : List String :=
  dedupFirst ((nzBuckets data).flatMap bucketKeep)

/-- The columns after `df['total_items'] = total_items` (a new column is
appended at the end). -/
def nzCols1 (data : List Record) : List String :=
  nzCols0 data
    ++ (if "total_items" ∈ nzCols0 data then [] else ["total_items"])

/-- The final column order: the three core columns, then the rest in
lexicographic order. -/
def nzFinalCols (data : List Record) : List String :=
  ["type", "source_index", "total_items"]
    ++ sortStrings ((nzCols1 data).filter
        (fun c => c ≠ "type" && c ≠ "source_index" && c ≠ "total_items"))

/-- The final rows: the broadcast `total_items` value followed by its
numeric coercion. -/
def nzRows2 (data : List Record) : List Record :=
  ((nzRows0 data).map
      (fun r => setVal r "total_items" (.jnum (nzRows0 data).length))).map
    (fun r => setVal r "total_items" (toNumericInt (pyGet r "total_items")))

/-- `normalize`: strip artifacts from copies, group by type, keep the
four known tags in fixed order, concatenate (outer join on columns),
append the broadcast `total_items` column, reorder columns, coerce
`total_items` to integer.  Returns `none` exactly when the source would
raise a `KeyError` on the core-column selection. -/
def normalize (data : List Record) : Option Table :=
  if nzGuard data then
    if (nzRows0 data).isEmpty then some ⟨[], []⟩
    else some ⟨nzFinalCols data, nzRows2 data⟩
  else none

/-!
### Pipeline state and the run
-/

/-- The mutable state of an `ETLPipeline` instance relevant to the core:
the accumulated record list and the schema dict. -/
structure ETLState where
  extracted_data : List Record
  schema : List (String × SchemaEntry)

/-- A fresh pipeline instance. -/
def initState : ETLState := ⟨[], []⟩

/-- `self.extract(content)`: appends the extracted records. -/
def extractStep (tOra : List Char → JVal) (wOra : List Char → Nat)
    (content : List Char) (s : ETLState) : ETLState :=
  ⟨s.extracted_data ++ extract tOra wOra content, s.schema⟩

/-- Dict assignment `self.schema[key] = ...`: an existing key keeps its
position and gets the new entry, a new key is appended (the same
CPython semantics as `setVal`). -/
def setSchemaVal :
    List (String × SchemaEntry) → String → SchemaEntry →
      List (String × SchemaEntry)
  | [], k, v => [(k, v)]
  | (k', v') :: rest, k, v =>
    if k' = k then (k, v) :: rest else (k', v') :: setSchemaVal rest k v

/-- `self.infer_schema()`: writes one schema entry per key and then
mutates every record with the fill-forward. -/
def inferSchemaStep (s : ETLState) : ETLState :=
  let data := s.extracted_data
  ⟨fillAll data,
   (allKeys data).foldl
     (fun sch k => setSchemaVal sch k (schemaEntry data k))
     s.schema⟩

/-- `self.normalize()`: reads `extracted_data`, builds the table from
fresh stripped copies, and leaves the instance state untouched (the
source assigns to no attribute and mutates no stored record). -/
def normalizeStep (s : ETLState) : ETLState × Option Table :=
  (s, normalize s.extracted_data)

/-- The extracted records of a fresh run on `content`. -/
def runExtract (tOra : List Char → JVal) (wOra : List Char → Nat)
    (content : List Char) : List Record :=
  (extractStep tOra wOra content initState).extracted_data

/-- The final table of a fresh run on `content` (detect, extract,
infer_schema, normalize). -/
def runTable (tOra : List Char → JVal) (wOra : List Char → Nat)
    (content : List Char) : Option Table :=
  (normalizeStep (inferSchemaStep (extractStep tOra wOra content initState))).2

/-!
### Lemmas about records and dicts
-/

theorem rlookup_setVal_self (r : Record) (k : String) (v : JVal) :
    rlookup (setVal r k v) k = some v := by
  induction r with
  | nil => simp [setVal, rlookup]
  | cons hd tl ih =>
    by_cases h : hd.1 = k
    · simp [setVal, h, rlookup]
    · simp [setVal, h, rlookup, ih]

theorem rlookup_setVal_ne (r : Record) (k k' : String) (v : JVal)
    (h : k ≠ k') : rlookup (setVal r k v) k' = rlookup r k' := by
  induction r with
  | nil =>
    simp only [setVal, rlookup]
    rw [if_neg h]
  | cons hd tl ih =>
    by_cases hk : hd.1 = k
    · rw [show setVal (hd :: tl) k v = (k, v) :: tl by simp [setVal, hk]]
      rw [show rlookup ((k, v) :: tl) k' = rlookup tl k' by
        simp [rlookup, h]]
      rcases hd with ⟨k₀, v₀⟩
      simp only at hk
      subst hk
      simp [rlookup, h]
    · rw [show setVal (hd :: tl) k v = hd :: setVal tl k v by
        simp [setVal, hk]]
      by_cases hk' : hd.1 = k'
      · simp [rlookup, hk']
      · simp [rlookup, hk', ih]

theorem pyGet_setVal_ne (r : Record) (k k' : String) (v : JVal)
    (h : k ≠ k') : pyGet (setVal r k v) k' = pyGet r k' := by
  simp [pyGet, rlookup_setVal_ne r k k' v h]

theorem rlookup_append (a b : Record) (k : String) :
    rlookup (a ++ b) k =
      match rlookup a k with
      | some v => some v
      | none => rlookup b k := by
  induction a with
  | nil => simp [rlookup]
  | cons hd tl ih =>
    by_cases h : hd.1 = k
    · simp [rlookup, h]
    · simp [rlookup, h, ih]

theorem rlookup_isSome_iff (r : Record) (k : String) :
    (rlookup r k).isSome = true ↔ ∃ v, (k, v) ∈ r := by
  induction r with
  | nil => simp [rlookup]
  | cons hd tl ih =>
    by_cases h : hd.1 = k
    · rcases hd with ⟨k₀, v₀⟩
      simp only at h
      subst h
      simp [rlookup]
    · simp only [rlookup, h, if_false, ih, List.mem_cons]
      constructor
      · rintro ⟨v, hv⟩
        exact ⟨v, Or.inr hv⟩
      · rintro ⟨v, hv | hv⟩
        · exact absurd (congrArg Prod.fst hv).symm h
        · exact ⟨v, hv⟩

theorem mem_recordKeys_iff (r : Record) (k : String) :
    k ∈ recordKeys r ↔ (rlookup r k).isSome = true := by
  rw [rlookup_isSome_iff]
  simp only [recordKeys, List.mem_map]
  constructor
  · rintro ⟨kv, hkv, hk⟩
    exact ⟨kv.2, by rwa [show (k, kv.2) = kv from Prod.ext hk.symm rfl]⟩
  · rintro ⟨v, hv⟩
    exact ⟨(k, v), hv, rfl⟩

theorem setVal_notMem (r : Record) (k : String) (v : JVal)
    (h : rlookup r k = none) : setVal r k v = r ++ [(k, v)] := by
  induction r with
  | nil => simp [setVal]
  | cons hd tl ih =>
    by_cases hk : hd.1 = k
    · simp [rlookup, hk] at h
    · simp only [rlookup, hk, if_false] at h
      simp [setVal, hk, ih h]

theorem recordKeys_setVal (r : Record) (k : String) (v : JVal) :
    recordKeys (setVal r k v) =
      if (rlookup r k).isSome = true then recordKeys r
      else recordKeys r ++ [k] := by
  induction r with
  | nil => simp [setVal, recordKeys, rlookup]
  | cons hd tl ih =>
    simp only [recordKeys] at ih ⊢
    by_cases hk : hd.1 = k
    · simp [setVal, hk, rlookup]
    · rw [show setVal (hd :: tl) k v = hd :: setVal tl k v by
        simp [setVal, hk]]
      simp only [List.map_cons, rlookup, hk, if_false, ih]
      split <;> simp

theorem mem_setVal (r : Record) (k : String) (v : JVal) (kv : String × JVal)
    (h : kv ∈ setVal r k v) : kv ∈ r ∨ kv = (k, v) := by
  induction r with
  | nil =>
    simp only [setVal, List.mem_singleton] at h
    exact Or.inr h
  | cons hd tl ih =>
    by_cases hk : hd.1 = k
    · rw [show setVal (hd :: tl) k v = (k, v) :: tl by simp [setVal, hk]] at h
      rcases List.mem_cons.1 h with h | h
      · exact Or.inr h
      · exact Or.inl (List.mem_cons_of_mem _ h)
    · rw [show setVal (hd :: tl) k v = hd :: setVal tl k v by
        simp [setVal, hk]] at h
      rcases List.mem_cons.1 h with h | h
      · exact Or.inl (h ▸ List.mem_cons_self _ _)
      · rcases ih h with h' | h'
        · exact Or.inl (List.mem_cons_of_mem _ h')
        · exact Or.inr h'

theorem rlookup_clean (r : Record) (k : String) (h1 : k ≠ "word_count")
    (h2 : k ≠ "title") : rlookup (cleanRecord r) k = rlookup r k := by
  induction r with
  | nil => simp [cleanRecord, rlookup]
  | cons hd tl ih =>
    simp only [cleanRecord] at ih ⊢
    rw [List.filter_cons]
    by_cases hdrop : hd.1 = "word_count" ∨ hd.1 = "title"
    · have hne : hd.1 ≠ k := by
        rcases hdrop with h | h
        · rw [h]; exact Ne.symm h1
        · rw [h]; exact Ne.symm h2
      have hp : (hd.1 ≠ "word_count" && hd.1 ≠ "title") = false := by
        rcases hdrop with h | h <;> simp [h]
      rw [hp, if_neg (by simp)]
      rw [show rlookup (hd :: tl) k = rlookup tl k by simp [rlookup, hne]]
      exact ih
    · push_neg at hdrop
      have hp : (hd.1 ≠ "word_count" && hd.1 ≠ "title") = true := by
        simp [hdrop.1, hdrop.2]
      rw [hp, if_pos rfl]
      by_cases hk : hd.1 = k
      · simp [rlookup, hk]
      · simp only [rlookup, hk, if_false]
        exact ih

theorem mem_recordKeys_clean (r : Record) (k : String) :
    k ∈ recordKeys (cleanRecord r) ↔
      k ∈ recordKeys r ∧ k ≠ "word_count" ∧ k ≠ "title" := by
  constructor
  · intro h
    simp only [recordKeys, cleanRecord, List.mem_map] at h
    rcases h with ⟨kv, hkv, hk⟩
    rw [List.mem_filter] at hkv
    rcases hkv with ⟨hmem, hcond⟩
    subst hk
    simp only [Bool.and_eq_true, decide_eq_true_eq, ne_eq] at hcond
    refine ⟨?_, hcond.1, hcond.2⟩
    simp only [recordKeys, List.mem_map]
    exact ⟨kv, hmem, rfl⟩
  · rintro ⟨hmem, h1, h2⟩
    simp only [recordKeys, List.mem_map] at hmem
    rcases hmem with ⟨kv, hkv, hk⟩
    subst hk
    simp only [recordKeys, cleanRecord, List.mem_map]
    refine ⟨kv, ?_, rfl⟩
    rw [List.mem_filter]
    exact ⟨hkv, by simp [h1, h2]⟩

theorem mem_dedupFirst {α : Type} [DecidableEq α] (l : List α) (x : α) :
    x ∈ dedupFirst l ↔ x ∈ l := by
  have aux : ∀ (l : List α) (acc : List α),
      x ∈ l.foldl (fun acc y => if y ∈ acc then acc else acc ++ [y]) acc ↔
        x ∈ acc ∨ x ∈ l := by
    intro l
    induction l with
    | nil => intro acc; simp
    | cons hd tl ih =>
      intro acc
      by_cases h : hd ∈ acc
      · rw [List.foldl_cons]
        simp only [h, if_true, ih]
        constructor
        · rintro (h' | h')
          · exact Or.inl h'
          · exact Or.inr (List.mem_cons_of_mem _ h')
        · rintro (h' | h')
          · exact Or.inl h'
          · rcases List.mem_cons.1 h' with h' | h'
            · exact Or.inl (h' ▸ h)
            · exact Or.inr h'
      · rw [List.foldl_cons]
        simp only [h, if_false, ih, List.mem_append, List.mem_singleton,
          List.mem_cons]
        tauto
  rw [dedupFirst, aux]
  simp

theorem mem_insertSorted (x y : String) (l : List String) :
    y ∈ insertSorted x l ↔ y = x ∨ y ∈ l := by
  induction l with
  | nil => simp [insertSorted]
  | cons hd tl ih =>
    by_cases h : pyStrLt x hd
    · simp [insertSorted, h, List.mem_cons]
    · simp [insertSorted, h, List.mem_cons, ih]
      tauto

theorem mem_sortStrings (l : List String) (x : String) :
    x ∈ sortStrings l ↔ x ∈ l := by
  induction l with
  | nil => simp [sortStrings]
  | cons hd tl ih =>
    simp only [sortStrings, List.foldr_cons] at ih ⊢
    rw [mem_insertSorted, ih, List.mem_cons]

/-!
### Lemmas about `dict(items)`
-/

theorem dict_fold_append (items : List (String × JVal)) :
    ∀ acc : Record, (recordKeys acc ++ items.map Prod.fst).Nodup →
      items.foldl (fun a p => setVal a p.1 p.2) acc = acc ++ items := by
  induction items with
  | nil => intro acc _; simp
  | cons hd tl ih =>
    intro acc hnd
    have hk : ¬(rlookup acc hd.1).isSome = true := by
      intro hs
      have hmem : hd.1 ∈ recordKeys acc := (mem_recordKeys_iff acc hd.1).2 hs
      have : List.Disjoint (recordKeys acc) (hd.1 :: tl.map Prod.fst) :=
        List.disjoint_of_nodup_append (by simpa using hnd)
      exact this hmem (List.mem_cons_self _ _)
    have hnone : rlookup acc hd.1 = none := by
      cases h : rlookup acc hd.1 with
      | none => rfl
      | some v => rw [h] at hk; simp at hk
    rw [List.foldl_cons, setVal_notMem acc hd.1 hd.2 hnone]
    have : recordKeys (acc ++ [(hd.1, hd.2)]) ++ tl.map Prod.fst =
        recordKeys acc ++ (hd.1 :: tl.map Prod.fst) := by
      simp [recordKeys]
    rw [ih (acc ++ [(hd.1, hd.2)]) (by rw [this]; simpa using hnd)]
    simp

theorem dictOfItems_self (items : List (String × JVal))
    (h : (items.map Prod.fst).Nodup) : dictOfItems items = items := by
  have := dict_fold_append items [] (by simpa [recordKeys])
  simpa [dictOfItems] using this

theorem dict_fold_keys_nodup (items : List (String × JVal)) :
    ∀ acc : Record, (recordKeys acc).Nodup →
      (recordKeys (items.foldl (fun a p => setVal a p.1 p.2) acc)).Nodup := by
  induction items with
  | nil => intro acc h; simpa
  | cons hd tl ih =>
    intro acc h
    rw [List.foldl_cons]
    refine ih _ ?_
    rw [recordKeys_setVal]
    split
    · exact h
    · rename_i hs
      rw [List.nodup_append]
      refine ⟨h, List.nodup_singleton _, ?_⟩
      intro a ha hb
      rw [List.mem_singleton] at hb
      subst hb
      exact hs ((mem_recordKeys_iff acc hd.1).1 ha)

theorem dictOfItems_keys_nodup (items : List (String × JVal)) :
    (recordKeys (dictOfItems items)).Nodup :=
  dict_fold_keys_nodup items [] (by simp [recordKeys])

theorem mem_dict_fold (items : List (String × JVal)) :
    ∀ (acc : Record) (kv : String × JVal),
      kv ∈ items.foldl (fun a p => setVal a p.1 p.2) acc →
        kv ∈ acc ∨ kv ∈ items := by
  induction items with
  | nil => intro acc kv h; exact Or.inl h
  | cons hd tl ih =>
    intro acc kv h
    rw [List.foldl_cons] at h
    rcases ih _ kv h with h' | h'
    · rcases mem_setVal acc hd.1 hd.2 kv h' with h'' | h''
      · exact Or.inl h''
      · right
        rw [h'']
        exact List.mem_cons_self _ _
    · exact Or.inr (List.mem_cons_of_mem _ h')

theorem mem_dictOfItems (items : List (String × JVal)) (kv : String × JVal)
    (h : kv ∈ dictOfItems items) : kv ∈ items := by
  rcases mem_dict_fold items [] kv h with h' | h'
  · simp at h'
  · exact h'

/-!
### Lemmas about the fill-forward of `infer_schema`
-/

theorem fill_lookup_some (ks : List String) :
    ∀ (acc : Record) (k : String) (v : JVal), rlookup acc k = some v →
      rlookup (ks.foldl
        (fun acc k => if (rlookup acc k).isSome then acc
          else acc ++ [(k, .jnull)]) acc) k = some v := by
  induction ks with
  | nil => intro acc k v h; simpa
  | cons hd tl ih =>
    intro acc k v h
    rw [List.foldl_cons]
    split
    · exact ih acc k v h
    · refine ih _ k v ?_
      rw [rlookup_append, h]

theorem fill_lookup_none (ks : List String) :
    ∀ (acc : Record) (k : String), k ∈ ks → rlookup acc k = none →
      rlookup (ks.foldl
        (fun acc k => if (rlookup acc k).isSome then acc
          else acc ++ [(k, .jnull)]) acc) k = some .jnull := by
  induction ks with
  | nil => intro acc k h; simp at h
  | cons hd tl ih =>
    intro acc k hk h
    rw [List.foldl_cons]
    by_cases hhd : hd = k
    · subst hhd
      rw [h]
      simp only [Option.isSome_none, Bool.false_eq_true, if_false]
      refine fill_lookup_some tl _ hd .jnull ?_
      rw [rlookup_append, h]
      simp [rlookup]
    · have hk' : k ∈ tl := by
        rcases List.mem_cons.1 hk with h' | h'
        · exact absurd h'.symm hhd
        · exact h'
      split
      · exact ih acc k hk' h
      · refine ih _ k hk' ?_
        rw [rlookup_append, h]
        simp [rlookup, hhd]

theorem fillRecord_isSome (ks : List String) (r : Record) (k : String)
    (hk : k ∈ ks) : (rlookup (fillRecord ks r) k).isSome = true := by
  cases h : rlookup r k with
  | none => rw [fillRecord, fill_lookup_none ks r k hk h]; rfl
  | some v => rw [fillRecord, fill_lookup_some ks r k v h]; rfl

theorem fillRecord_none (ks : List String) (r : Record) (k : String)
    (hk : k ∈ ks) (h : rlookup r k = none) :
    rlookup (fillRecord ks r) k = some .jnull :=
  fill_lookup_none ks r k hk h

/-!
### Lemmas about the schema map
-/

theorem mem_allKeys (data : List Record) (k : String) :
    k ∈ allKeys data ↔ ∃ r ∈ data, k ∈ recordKeys r := by
  rw [allKeys, mem_dedupFirst, List.mem_flatMap]

theorem inferSchemaMap_keys (data : List Record) :
    (inferSchemaMap data).map Prod.fst = allKeys data := by
  rw [inferSchemaMap, List.map_map,
    show (Prod.fst ∘ fun k => (k, schemaEntry data k)) = id from rfl,
    List.map_id]

theorem nullableB_iff (data : List Record) (k : String) :
    nullableB data k = true ↔
      ∃ r ∈ data, rlookup r k = none ∨ rlookup r k = some .jnull := by
  rw [nullableB, List.any_eq_true]
  constructor
  · rintro ⟨r, hr, hmatch⟩
    refine ⟨r, hr, ?_⟩
    cases h : rlookup r k with
    | none => exact Or.inl rfl
    | some v =>
      rw [h] at hmatch
      cases v <;> simp at hmatch
      exact Or.inr rfl
  · rintro ⟨r, hr, h | h⟩
    · exact ⟨r, hr, by rw [h]⟩
    · exact ⟨r, hr, by rw [h]⟩

theorem presentCount_le_length (data : List Record) (k : String) :
    presentCount data k ≤ data.length :=
  List.countP_le_length _

/-!
### Lemmas about `flatten_dict`
-/

/-- Is a value a nested object? -/
def isObjV : JVal → Bool
  | .jobj _ => true
  | _ => false

/-- Plain conversion of an association list into an object spine. -/
def JObj.ofList : List (String × JVal) → JObj
  | [] => .nil
  | (k, v) :: rest => .cons k v (JObj.ofList rest)

/-- The keys of an object, in order. -/
def JObj.keys (d : JObj) : List String := d.toList.map Prod.fst

theorem toList_ofList (l : List (String × JVal)) :
    (JObj.ofList l).toList = l := by
  induction l with
  | nil => rfl
  | cons hd tl ih => cases hd; simp [JObj.ofList, JObj.toList, ih]

theorem jval_size_pos (v : JVal) : 1 ≤ v.size := by
  cases v <;> simp [JVal.size] <;> omega

theorem jobj_size_pos (d : JObj) : 1 ≤ d.size := by
  cases d <;> simp [JObj.size] <;> omega

theorem JObj.size_cons (k : String) (v : JVal) (tl : JObj) :
    JObj.size (.cons k v tl) = 1 + v.size + tl.size := by
  simp [JObj.size]

theorem flattenItemsF_nil (f : Nat) (p : String) :
    flattenItemsF f .nil p = [] := by
  cases f <;> rfl

theorem flattenItemsF_fuel :
    ∀ (f : Nat) (d : JObj) (p : String), d.size ≤ f →
      flattenItemsF f d p = flattenItems d p := by
  intro f
  induction f using Nat.strong_induction_on with
  | _ f ih =>
    intro d p hf
    cases d with
    | nil => rw [flattenItemsF_nil, flattenItems, flattenItemsF_nil]
    | cons k v tl =>
      have hvp := jval_size_pos v
      have htp := jobj_size_pos tl
      have hsz := JObj.size_cons k v tl
      obtain ⟨f', rfl⟩ : ∃ f', f = f' + 1 := ⟨f - 1, by omega⟩
      obtain ⟨m, hm⟩ : ∃ m, JObj.size (.cons k v tl) = m + 1 :=
        ⟨JObj.size (.cons k v tl) - 1, by omega⟩
      have hm' : m = v.size + tl.size := by omega
      rw [flattenItems, hm]
      have hmf : m < f' + 1 := by omega
      have htl : flattenItemsF f' tl p = flattenItemsF m tl p := by
        rw [ih f' (by omega) tl p (by omega), ih m hmf tl p (by omega)]
      cases v with
      | jobj inner =>
        have hiz : JVal.size (.jobj inner) = 1 + inner.size := by
          simp [JVal.size]
        have hin : flattenItemsF f' inner (mkKey p k) =
            flattenItemsF m inner (mkKey p k) := by
          rw [ih f' (by omega) inner _ (by omega),
            ih m hmf inner _ (by omega)]
        simp only [flattenItemsF]
        rw [htl, hin]
      | jnull => simp only [flattenItemsF]; rw [htl]
      | jbool b => simp only [flattenItemsF]; rw [htl]
      | jnum n => simp only [flattenItemsF]; rw [htl]
      | jstr s => simp only [flattenItemsF]; rw [htl]
      | jarr es => simp only [flattenItemsF]; rw [htl]

theorem flattenItems_nil (p : String) : flattenItems .nil p = [] := rfl

theorem flattenItems_cons_obj (k : String) (inner tl : JObj) (p : String) :
    flattenItems (.cons k (.jobj inner) tl) p =
      flattenItems inner (mkKey p k) ++ flattenItems tl p := by
  have htp := jobj_size_pos tl
  have hip := jobj_size_pos inner
  have hsz := JObj.size_cons k (.jobj inner) tl
  have hiz : JVal.size (.jobj inner) = 1 + inner.size := by simp [JVal.size]
  obtain ⟨m, hm⟩ : ∃ m, JObj.size (.cons k (.jobj inner) tl) = m + 1 :=
    ⟨JObj.size (.cons k (.jobj inner) tl) - 1, by omega⟩
  rw [flattenItems, hm]
  simp only [flattenItemsF]
  rw [flattenItemsF_fuel m inner _ (by omega),
    flattenItemsF_fuel m tl _ (by omega)]

theorem flattenItems_cons_other (k : String) (v : JVal) (tl : JObj)
    (p : String) (h : isObjV v = false) :
    flattenItems (.cons k v tl) p = (mkKey p k, v) :: flattenItems tl p := by
  have hvp := jval_size_pos v
  have htp := jobj_size_pos tl
  have hsz := JObj.size_cons k v tl
  obtain ⟨m, hm⟩ : ∃ m, JObj.size (.cons k v tl) = m + 1 :=
    ⟨JObj.size (.cons k v tl) - 1, by omega⟩
  rw [flattenItems, hm]
  have htl : flattenItemsF m tl p = flattenItems tl p :=
    flattenItemsF_fuel m tl p (by omega)
  cases v with
  | jobj inner => simp [isObjV] at h
  | jnull => simp only [flattenItemsF]; rw [htl]; rfl
  | jbool b => simp only [flattenItemsF]; rw [htl]; rfl
  | jnum n => simp only [flattenItemsF]; rw [htl]; rfl
  | jstr s => simp only [flattenItemsF]; rw [htl]; rfl
  | jarr es => simp only [flattenItemsF]; rw [htl]; rfl

theorem flattenItems_flat (d : JObj)
    (h : ∀ kv ∈ d.toList, isObjV kv.2 = false) :
    flattenItems d "" = d.toList := by
  have main : ∀ (n : Nat) (d : JObj), d.size ≤ n →
      (∀ kv ∈ d.toList, isObjV kv.2 = false) →
      flattenItems d "" = d.toList := by
    intro n
    induction n with
    | zero => intro d hle; have := jobj_size_pos d; omega
    | succ n ih =>
      intro d hle hflat
      cases d with
      | nil => rfl
      | cons k v tl =>
        have hv : isObjV v = false :=
          hflat (k, v) (by simp [JObj.toList])
        rw [flattenItems_cons_other k v tl "" hv]
        have hsz := JObj.size_cons k v tl
        have := jval_size_pos v
        rw [ih tl (by omega)
          (fun kv hkv => hflat kv (List.mem_cons_of_mem _ hkv))]
        simp [JObj.toList, mkKey]
  exact main d.size d (Nat.le_refl _) h

theorem flattenItemsF_no_obj (f : Nat) :
    ∀ (d : JObj) (p : String) (kv : String × JVal),
      kv ∈ flattenItemsF f d p → isObjV kv.2 = false := by
  induction f with
  | zero => intro d p kv h; simp [flattenItemsF] at h
  | succ f ih =>
    intro d p kv h
    cases d with
    | nil => simp [flattenItemsF_nil] at h
    | cons k v tl =>
      cases v with
      | jobj inner =>
        simp only [flattenItemsF, List.mem_append] at h
        rcases h with h | h
        · exact ih inner _ kv h
        · exact ih tl p kv h
      | jnull =>
        simp only [flattenItemsF, List.mem_append, List.mem_singleton] at h
        rcases h with h | h
        · simp [h, isObjV]
        · exact ih tl p kv h
      | jbool b =>
        simp only [flattenItemsF, List.mem_append, List.mem_singleton] at h
        rcases h with h | h
        · simp [h, isObjV]
        · exact ih tl p kv h
      | jnum n =>
        simp only [flattenItemsF, List.mem_append, List.mem_singleton] at h
        rcases h with h | h
        · simp [h, isObjV]
        · exact ih tl p kv h
      | jstr s =>
        simp only [flattenItemsF, List.mem_append, List.mem_singleton] at h
        rcases h with h | h
        · simp [h, isObjV]
        · exact ih tl p kv h
      | jarr es =>
        simp only [flattenItemsF, List.mem_append, List.mem_singleton] at h
        rcases h with h | h
        · simp [h, isObjV]
        · exact ih tl p kv h

theorem mem_flattenItems_of_arr (d : JObj) (k : String) (xs : JArr)
    (h : (k, JVal.jarr xs) ∈ d.toList) :
    (k, JVal.jarr xs) ∈ flattenItems d "" := by
  have main : ∀ (n : Nat) (d : JObj), d.size ≤ n →
      (k, JVal.jarr xs) ∈ d.toList →
      (k, JVal.jarr xs) ∈ flattenItems d "" := by
    intro n
    induction n with
    | zero => intro d hle; have := jobj_size_pos d; omega
    | succ n ih =>
      intro d hle hmem
      cases d with
      | nil => simp [JObj.toList] at hmem
      | cons k' v tl =>
        have hsz := JObj.size_cons k' v tl
        have hvp := jval_size_pos v
        rw [show (JObj.cons k' v tl).toList = (k', v) :: tl.toList from rfl]
          at hmem
        rcases List.mem_cons.1 hmem with heq | htl
        · cases heq
          rw [flattenItems_cons_other k (JVal.jarr xs) tl "" (by simp [isObjV])]
          simp [mkKey]
        · cases hov : isObjV v with
          | true =>
            cases v with
            | jobj inner =>
              rw [flattenItems_cons_obj k' inner tl ""]
              exact List.mem_append_right _ (ih tl (by omega) htl)
            | jnull => simp [isObjV] at hov
            | jbool b => simp [isObjV] at hov
            | jnum n => simp [isObjV] at hov
            | jstr s => simp [isObjV] at hov
            | jarr es => simp [isObjV] at hov
          | false =>
            rw [flattenItems_cons_other k' v tl "" hov]
            exact List.mem_cons_of_mem _ (ih tl (by omega) htl)
  exact main d.size d (Nat.le_refl _) h

theorem presentCount_lt_iff (data : List Record) (k : String) :
    presentCount data k < data.length ↔
      ∃ r ∈ data, rlookup r k = none := by
  constructor
  · intro h
    by_contra hno
    push_neg at hno
    have : presentCount data k = data.length := by
      rw [presentCount, List.countP_eq_length]
      intro r hr
      cases hrk : rlookup r k with
      | none => exact absurd hrk (hno r hr)
      | some v => simp
    omega
  · rintro ⟨r, hr, hrk⟩
    rcases List.append_of_mem hr with ⟨l1, l2, rfl⟩
    rw [presentCount]
    have hcount : (l1 ++ r :: l2).countP (fun r => (rlookup r k).isSome) =
        l1.countP (fun r => (rlookup r k).isSome)
          + (r :: l2).countP (fun r => (rlookup r k).isSome) :=
      List.countP_append _ _ _
    rw [hcount, List.countP_cons, List.length_append, List.length_cons]
    have h1 := List.countP_le_length
      (p := fun r => (rlookup r k).isSome) (l := l1)
    have h2 := List.countP_le_length
      (p := fun r => (rlookup r k).isSome) (l := l2)
    simp [hrk]
    omega

/-!
### Lemmas about the JSON span scanner

These establish that on a document made of newline-separated lines, each
line either brace-free or exactly one single-level JSON object, the scan
finds exactly the object lines, in order.
-/

theorem scanBody_len (l : List Char) : ∀ (b : Bool) (m r : List Char),
    scanBody l b = some (m, r) → r.length < l.length := by
  induction l with
  | nil => intro b m r h; simp [scanBody] at h
  | cons c rest ih =>
    intro b m r h
    rw [scanBody] at h
    split at h
    · split at h
      · rcases Option.map_eq_some'.1 h with ⟨p, hp, heq⟩
        have := ih false p.1 p.2 (by rw [hp])
        cases heq
        simp only [List.length_cons]
        omega
      · cases h
        simp
    · split at h
      · split at h
        · exact absurd h (by simp)
        · rcases Option.map_eq_some'.1 h with ⟨p, hp, heq⟩
          have := ih true p.1 p.2 (by rw [hp])
          cases heq
          simp only [List.length_cons]
          omega
      · rcases Option.map_eq_some'.1 h with ⟨p, hp, heq⟩
        have := ih b p.1 p.2 (by rw [hp])
        cases heq
        simp only [List.length_cons]
        omega

theorem jsonFindallAux_fuel :
    ∀ (f : Nat) (l : List Char), l.length ≤ f →
      jsonFindallAux f l = jsonFindall l := by
  intro f
  induction f using Nat.strong_induction_on with
  | _ f ih =>
    intro l hf
    cases l with
    | nil => rw [jsonFindall]; cases f <;> rfl
    | cons c rest =>
      have hf' : rest.length + 1 ≤ f := hf
      obtain ⟨f', rfl⟩ : ∃ f', f = f' + 1 := ⟨f - 1, by omega⟩
      show jsonFindallAux (f' + 1) (c :: rest) =
        jsonFindallAux (rest.length + 1) (c :: rest)
      simp only [jsonFindallAux]
      by_cases hc : c = '\x7b'
      · simp only [if_pos hc]
        cases hs : scanBody rest false with
        | none =>
          simp only [hs]
          rw [ih f' (by omega) rest (by omega),
            ih rest.length (by omega) rest (Nat.le_refl _)]
        | some p =>
          rcases p with ⟨m, r⟩
          have hlt := scanBody_len rest false m r hs
          simp only [hs]
          rw [ih f' (by omega) r (by omega),
            ih rest.length (by omega) r (by omega)]
      · simp only [if_neg hc]
        rw [ih f' (by omega) rest (by omega),
          ih rest.length (by omega) rest (Nat.le_refl _)]

theorem jsonFindall_nil : jsonFindall [] = [] := rfl

theorem jsonFindall_cons_skip (c : Char) (rest : List Char)
    (hc : c ≠ '\x7b') : jsonFindall (c :: rest) = jsonFindall rest := by
  rw [jsonFindall]
  show jsonFindallAux (rest.length + 1) (c :: rest) = _
  simp only [jsonFindallAux, if_neg hc]
  exact jsonFindallAux_fuel rest.length rest (Nat.le_refl _)

theorem jsonFindall_cons_open_some (rest m r : List Char)
    (hs : scanBody rest false = some (m, r)) :
    jsonFindall ('\x7b' :: rest) = ('\x7b' :: m) :: jsonFindall r := by
  rw [jsonFindall]
  show jsonFindallAux (rest.length + 1) ('\x7b' :: rest) = _
  simp only [jsonFindallAux, hs, if_pos (rfl : ('\x7b' : Char) = '\x7b')]
  have hlt := scanBody_len rest false m r hs
  rw [jsonFindallAux_fuel rest.length r (by omega)]
  simp

theorem jsonFindall_append_skip (pre rest : List Char)
    (h : '\x7b' ∉ pre) : jsonFindall (pre ++ rest) = jsonFindall rest := by
  induction pre with
  | nil => rfl
  | cons c tl ih =>
    rw [List.cons_append,
      jsonFindall_cons_skip c _ (fun hc => h (hc ▸ List.mem_cons_self _ _)),
      ih (fun hm => h (List.mem_cons_of_mem _ hm))]

theorem scanBody_mid (mid rest : List Char) (h1 : '\x7b' ∉ mid)
    (h2 : '\x7d' ∉ mid) :
    scanBody (mid ++ '\x7d' :: rest) false = some (mid ++ ['\x7d'], rest) := by
  induction mid with
  | nil => simp [scanBody]
  | cons c tl ih =>
    have hcb : c ≠ '\x7b' := fun hc => h1 (hc ▸ List.mem_cons_self _ _)
    have hcd : c ≠ '\x7d' := fun hc => h2 (hc ▸ List.mem_cons_self _ _)
    rw [List.cons_append, scanBody, if_neg hcd, if_neg hcb,
      ih (fun hm => h1 (List.mem_cons_of_mem _ hm))
        (fun hm => h2 (List.mem_cons_of_mem _ hm))]
    rfl

theorem jsonFindall_obj (mid rest : List Char) (h1 : '\x7b' ∉ mid)
    (h2 : '\x7d' ∉ mid) :
    jsonFindall ('\x7b' :: (mid ++ '\x7d' :: rest)) =
      ('\x7b' :: (mid ++ ['\x7d'])) :: jsonFindall rest :=
  jsonFindall_cons_open_some _ _ _ (scanBody_mid mid rest h1 h2)

/-- Does a line have the shape of a single-level JSON object candidate:
an opening brace, a brace-free middle, a closing brace?  Exactly the
lines on which the JSON regex matches the whole line. -/
def checkMid : List Char → Bool
  | [] => false
  | [c] => c = '\x7d'
  | c :: rest => c ≠ '\x7b' && c ≠ '\x7d' && checkMid rest

/-- Shape of a single-level object line. -/
def isObjB : List Char → Bool
  | '\x7b' :: rest => checkMid rest
  | _ => false

/-- Rebuild a document from its lines (the inverse of splitting on
newlines, for lines that contain none). -/
def joinLines : List (List Char) → List Char
  | [] => []
  | [l] => l
  | l :: ls => l ++ '\n' :: joinLines ls

theorem checkMid_decomp (l : List Char) (h : checkMid l = true) :
    ∃ mid, l = mid ++ ['\x7d'] ∧ '\x7b' ∉ mid ∧ '\x7d' ∉ mid := by
  induction l with
  | nil => simp [checkMid] at h
  | cons c tl ih =>
    cases tl with
    | nil =>
      have hc : c = '\x7d' := by simpa [checkMid] using h
      exact ⟨[], by simp [hc], by simp, by simp⟩
    | cons c2 tl2 =>
      have h' : (c ≠ '\x7b' && c ≠ '\x7d' && checkMid (c2 :: tl2)) = true := h
      simp only [Bool.and_eq_true, decide_eq_true_eq, ne_eq] at h'
      rcases ih (by simpa using h'.2) with ⟨mid, heq, h1, h2⟩
      refine ⟨c :: mid, by simp [heq], ?_, ?_⟩
      · simp only [List.mem_cons, not_or]
        exact ⟨fun hb => h'.1.1 hb.symm, fun hm => h1 hm⟩
      · simp only [List.mem_cons, not_or]
        exact ⟨fun hb => h'.1.2 hb.symm, fun hm => h2 hm⟩

theorem isObjB_decomp (l : List Char) (h : isObjB l = true) :
    ∃ mid, l = '\x7b' :: (mid ++ ['\x7d']) ∧ '\x7b' ∉ mid ∧ '\x7d' ∉ mid := by
  cases l with
  | nil => simp [isObjB] at h
  | cons c rest =>
    by_cases hc : c = '\x7b'
    · subst hc
      rcases checkMid_decomp rest (by simpa [isObjB] using h) with
        ⟨mid, heq, h1, h2⟩
      exact ⟨mid, by rw [heq], h1, h2⟩
    · exfalso
      have hfalse : isObjB (c :: rest) = false := by
        unfold isObjB
        split
        · rename_i heq
          injection heq with h1 _
          exact absurd h1 hc
        · rfl
      rw [hfalse] at h
      cases h

theorem isObjB_open_mem (l : List Char) (h : isObjB l = true) :
    '\x7b' ∈ l := by
  rcases isObjB_decomp l h with ⟨mid, rfl, _, _⟩
  exact List.mem_cons_self _ _

theorem jsonFindall_joinLines (lines : List (List Char))
    (hline : ∀ l ∈ lines, '\n' ∉ l ∧ (isObjB l = true ∨ '\x7b' ∉ l)) :
    jsonFindall (joinLines lines) =
      lines.filter (fun l => isObjB l) := by
  induction lines with
  | nil => rfl
  | cons l ls ih =>
    have hl := hline l (List.mem_cons_self _ _)
    have hls : ∀ l' ∈ ls, '\n' ∉ l' ∧ (isObjB l' = true ∨ '\x7b' ∉ l') :=
      fun l' hl' => hline l' (List.mem_cons_of_mem _ hl')
    cases ls with
    | nil =>
      rcases hl.2 with hobj | hskip
      · rcases isObjB_decomp l hobj with ⟨mid, rfl, h1, h2⟩
        show jsonFindall ('\x7b' :: (mid ++ ['\x7d'])) = _
        rw [show (mid ++ ['\x7d'] : List Char) = mid ++ '\x7d' :: [] from rfl,
          jsonFindall_obj mid [] h1 h2, jsonFindall_nil,
          List.filter_cons_of_pos (by simpa using hobj)]
        rfl
      · have hfalse : isObjB l = false := by
          cases hob : isObjB l with
          | true => exact absurd (isObjB_open_mem l hob) hskip
          | false => rfl
        show jsonFindall l = _
        rw [show l = l ++ [] from (List.append_nil l).symm,
          jsonFindall_append_skip l [] hskip, jsonFindall_nil,
          List.filter_cons_of_neg (by simp [hfalse])]
        rfl
    | cons l2 ls2 =>
      have hrest := ih hls
      have hjoin : joinLines (l :: l2 :: ls2) =
          l ++ '\n' :: joinLines (l2 :: ls2) := rfl
      rcases hl.2 with hobj | hskip
      · rcases isObjB_decomp l hobj with ⟨mid, rfl, h1, h2⟩
        rw [hjoin, List.filter_cons_of_pos (by simpa using hobj)]
        rw [show ('\x7b' :: (mid ++ ['\x7d'])) ++ '\n' :: joinLines (l2 :: ls2)
            = '\x7b' :: (mid ++ '\x7d' :: ('\n' :: joinLines (l2 :: ls2)))
          from by simp]
        rw [jsonFindall_obj mid _ h1 h2,
          jsonFindall_cons_skip '\n' _ (by decide), hrest]
      · have hfalse : isObjB l = false := by
          cases hob : isObjB l with
          | true => exact absurd (isObjB_open_mem l hob) hskip
          | false => rfl
        rw [hjoin, List.filter_cons_of_neg (by simp [hfalse])]
        rw [show l ++ '\n' :: joinLines (l2 :: ls2)
            = (l ++ ['\n']) ++ joinLines (l2 :: ls2) from by simp]
        rw [jsonFindall_append_skip _ _ (by
          simp only [List.mem_append, List.mem_singleton, not_or]
          exact ⟨hskip, by decide⟩), hrest]

theorem detectJson_all (ms : List (List Char)) (hnd : ms.Nodup)
    (hok : ∀ m ∈ ms, (jsonLoads m).isSome = true) : detectJson ms = ms := by
  have aux : ∀ (ms : List (List Char)) (acc : List (List Char)),
      (acc ++ ms).Nodup → (∀ m ∈ ms, (jsonLoads m).isSome = true) →
      ms.foldl
        (fun acc m =>
          if (jsonLoads m).isSome then
            if m ∈ acc then acc else acc ++ [m]
          else acc) acc = acc ++ ms := by
    intro ms
    induction ms with
    | nil => intro acc _ _; simp
    | cons m tl ih =>
      intro acc hnd hok
      have hm : (jsonLoads m).isSome = true := hok m (List.mem_cons_self _ _)
      have hnin : m ∉ acc := by
        intro hmem
        have hdis : List.Disjoint acc (m :: tl) :=
          List.disjoint_of_nodup_append hnd
        exact hdis hmem (List.mem_cons_self _ _)
      rw [List.foldl_cons]
      simp only [hm, if_pos, hnin, if_neg, if_true, if_false]
      rw [ih (acc ++ [m]) (by simpa using hnd)
        (fun m' hm' => hok m' (List.mem_cons_of_mem _ hm'))]
      simp
  have := aux ms [] (by simpa using hnd) hok
  simpa [detectJson] using this

/-!
### Lemmas about `extract`
-/

theorem extract_json_type (s : List Char) :
    rlookup (extract_json s) "type" = some (.jstr "json") := by
  rw [extract_json]
  cases h : jsonLoads s with
  | none => rfl
  | some v =>
    cases v with
    | jobj fs => exact rlookup_setVal_self _ _ _
    | jnull => rfl
    | jbool b => rfl
    | jnum n => rfl
    | jstr s' => rfl
    | jarr es => rfl

theorem mem_enumFrom_snd {α : Type} :
    ∀ (n : Nat) (l : List α) (p : Nat × α), p ∈ l.enumFrom n → p.2 ∈ l := by
  intro n l
  induction l generalizing n with
  | nil => intro p hp; simp [List.enumFrom] at hp
  | cons a tl ih =>
    intro p hp
    rw [List.enumFrom] at hp
    rcases List.mem_cons.1 hp with h | h
    · rw [h]
      exact List.mem_cons_self _ _
    · exact List.mem_cons_of_mem _ (ih (n + 1) p h)

theorem rlookup_withIndices (tag : String) (recs : List Record) (r : Record)
    (h : r ∈ withIndices tag recs) (k : String) (hk : k ≠ "source_index") :
    ∃ rec ∈ recs, rlookup r k = rlookup rec k := by
  rcases List.mem_map.1 h with ⟨p, hp, rfl⟩
  exact ⟨p.2, mem_enumFrom_snd 0 recs p hp,
    rlookup_setVal_ne _ _ _ _ (Ne.symm hk)⟩

theorem filter_json_of_other_tag (tag : String) (recs : List Record)
    (htag : tag ≠ "json")
    (h : ∀ rec ∈ recs, rlookup rec "type" = some (.jstr tag)) :
    (withIndices tag recs).filter (fun r => isTypeTag r "json") = [] := by
  rw [List.filter_eq_nil_iff]
  intro r hr
  rcases rlookup_withIndices tag recs r hr "type" (by decide) with
    ⟨rec, hrec, heq⟩
  simp [isTypeTag, heq, h rec hrec, htag]

theorem filter_json_of_json (recs : List Record)
    (h : ∀ rec ∈ recs, rlookup rec "type" = some (.jstr "json")) :
    (withIndices "json" recs).filter (fun r => isTypeTag r "json") =
      withIndices "json" recs := by
  rw [List.filter_eq_self]
  intro r hr
  rcases rlookup_withIndices "json" recs r hr "type" (by decide) with
    ⟨rec, hrec, heq⟩
  simp [isTypeTag, heq, h rec hrec]

theorem withIndices_length (tag : String) (recs : List Record) :
    (withIndices tag recs).length = recs.length := by
  simp [withIndices]

theorem withIndices_getD (tag : String) (recs : List Record) (i : Nat)
    (hi : i < recs.length) :
    (withIndices tag recs).getD i [] =
      setVal (recs.getD i []) "source_index"
        (.jstr (tag ++ "_" ++ toString i)) := by
  have h1 : (withIndices tag recs).getD i [] =
      setVal (recs.get ⟨i, hi⟩) "source_index"
        (.jstr (tag ++ "_" ++ toString (0 + i))) := by
    rw [List.getD_eq_getElem?_getD, withIndices, List.getElem?_map]
    rw [show (List.enum recs)[i]? = recs[i]?.map (fun a => (0 + i, a)) from
      List.getElem?_enumFrom 0 recs i]
    rw [List.getElem?_eq_getElem hi]
    simp [List.get_eq_getElem]
  rw [h1, List.getD_eq_getElem?_getD, List.getElem?_eq_getElem hi]
  simp [List.get_eq_getElem]

theorem extract_filter_json (tOra : List Char → JVal)
    (wOra : List Char → Nat) (content : List Char) :
    (extract tOra wOra content).filter (fun r => isTypeTag r "json") =
      withIndices "json"
        ((detect_content_types content).json.map extract_json) := by
  rw [extract]
  rw [List.filter_append, List.filter_append, List.filter_append]
  rw [filter_json_of_other_tag "html" _ (by decide)
    (fun rec hrec => by
      rcases List.mem_map.1 hrec with ⟨s, _, rfl⟩
      rfl)]
  rw [filter_json_of_other_tag "text" _ (by decide)
    (fun rec hrec => by
      rcases List.mem_map.1 hrec with ⟨s, _, rfl⟩
      rfl)]
  rw [filter_json_of_other_tag "media" _ (by decide)
    (fun rec hrec => by
      rcases List.mem_map.1 hrec with ⟨s, _, rfl⟩
      rfl)]
  rw [filter_json_of_json _
    (fun rec hrec => by
      rcases List.mem_map.1 hrec with ⟨s, _, rfl⟩
      exact extract_json_type s)]
  simp

/-!
### Lemmas about `normalize`
-/

theorem normalize_some (data : List Record) (t : Table)
    (h : normalize data = some t) :
    nzGuard data = true ∧
    ((nzRows0 data).isEmpty = true ∧ t = ⟨[], []⟩ ∨
      (nzRows0 data).isEmpty = false ∧
        t = ⟨nzFinalCols data, nzRows2 data⟩) := by
  by_cases hg : nzGuard data
  · refine ⟨hg, ?_⟩
    by_cases he : (nzRows0 data).isEmpty
    · left
      refine ⟨he, ?_⟩
      rw [normalize, if_pos hg, if_pos he] at h
      exact (Option.some.inj h).symm
    · right
      refine ⟨by simpa using he, ?_⟩
      rw [normalize, if_pos hg, if_neg he] at h
      exact (Option.some.inj h).symm
  · rw [normalize, if_neg hg] at h
    exact absurd h (by simp)

theorem mem_nzCols0 (data : List Record) (c : String)
    (h : c ∈ nzCols0 data) :
    c = "type" ∨ c = "source_index" ∨
      ∃ r ∈ data, c ∈ recordKeys (cleanRecord r) := by
  simp only [nzCols0, mem_dedupFirst, List.mem_flatMap] at h
  rcases h with ⟨b, hb, hc⟩
  simp only [bucketKeep, List.mem_append] at hc
  rcases hc with hc | hc
  · simp only [List.mem_cons, List.mem_singleton] at hc
    tauto
  · rw [List.mem_filter] at hc
    have hc' := hc.1
    simp only [bucketCols, mem_dedupFirst, List.mem_flatMap] at hc'
    rcases hc' with ⟨r, hr, hcr⟩
    right; right
    have hrin : r ∈ data.map cleanRecord := by
      simp only [nzBuckets, List.mem_filter, List.mem_map] at hb
      rcases hb with ⟨⟨s, _, rfl⟩, _⟩
      exact List.mem_of_mem_filter hr
    rcases List.mem_map.1 hrin with ⟨r0, hr0, rfl⟩
    exact ⟨r0, hr0, hcr⟩

theorem mem_nzFinalCols (data : List Record) (c : String)
    (h : c ∈ nzFinalCols data) :
    c = "type" ∨ c = "source_index" ∨ c = "total_items" ∨
      c ∈ nzCols0 data := by
  simp only [nzFinalCols, List.mem_append] at h
  rcases h with h | h
  · simp only [List.mem_cons, List.mem_singleton] at h
    tauto
  · rw [mem_sortStrings, List.mem_filter] at h
    rcases h with ⟨h1, h2⟩
    simp only [Bool.and_eq_true, decide_eq_true_eq, ne_eq] at h2
    simp only [nzCols1, List.mem_append] at h1
    rcases h1 with h1 | h1
    · exact Or.inr (Or.inr (Or.inr h1))
    · split at h1
      · simp at h1
      · rw [List.mem_singleton] at h1
        exact absurd h1 (by tauto)

theorem nzRows2_total (data : List Record) (r : Record)
    (hr : r ∈ nzRows2 data) :
    rlookup r "total_items" = some (.jnum (nzRows0 data).length) := by
  simp only [nzRows2, List.mem_map] at hr
  rcases hr with ⟨r1, ⟨r0, _, rfl⟩, rfl⟩
  rw [rlookup_setVal_self]
  congr 1
  rw [pyGet, rlookup_setVal_self]
  rfl

theorem nzRows2_length (data : List Record) :
    (nzRows2 data).length = (nzRows0 data).length := by
  simp [nzRows2]

theorem isTypeTag_clean (r : Record) (s : String) :
    isTypeTag (cleanRecord r) s = isTypeTag r s := by
  rw [isTypeTag, isTypeTag,
    rlookup_clean r "type" (by decide) (by decide)]

theorem isTypeTag_some (r : Record) (s : String) (hs : s ≠ "unknown")
    (h : isTypeTag r s = true) : rlookup r "type" = some (.jstr s) := by
  rw [isTypeTag] at h
  cases hr : rlookup r "type" with
  | none =>
    rw [hr] at h
    simp only [decide_eq_true_eq] at h
    exact absurd h.symm hs
  | some v =>
    rw [hr] at h
    cases v with
    | jstr t =>
      simp only [decide_eq_true_eq] at h
      rw [h]
    | jnull => simp at h
    | jbool b => simp at h
    | jnum n => simp at h
    | jarr es => simp at h
    | jobj fs => simp at h

theorem flatMap_id_filter_nonempty {α : Type} (l : List (List α)) :
    (l.filter (fun b => !b.isEmpty)).flatMap id = l.flatMap id := by
  induction l with
  | nil => rfl
  | cons hd tl ih =>
    by_cases h : hd.isEmpty
    · have : hd = [] := List.isEmpty_iff.1 h
      subst this
      simpa using ih
    · rw [List.filter_cons]
      simp only [h, Bool.not_false, if_pos]
      simp [ih]

theorem bucket_types (cleaned : List Record) (s : String)
    (hs : s ≠ "unknown") :
    (bucketFor cleaned s).map (fun r => pyGet r "type") =
      List.replicate (cleaned.countP (fun r => isTypeTag r s))
        (JVal.jstr s) := by
  rw [List.eq_replicate_iff]
  constructor
  · simp [bucketFor, List.countP_eq_length_filter]
  · intro b hb
    rcases List.mem_map.1 hb with ⟨r, hr, rfl⟩
    have := List.mem_filter.1 hr
    rw [pyGet, isTypeTag_some r s hs this.2]
    rfl

theorem tag_indicator (r : Record) :
    ((if isTypeTag r "html" = true then 1 else 0) +
      (if isTypeTag r "json" = true then 1 else 0) +
      (if isTypeTag r "text" = true then 1 else 0) +
      (if isTypeTag r "media" = true then 1 else 0) : Nat) =
    (if (isTypeTag r "html" || isTypeTag r "json" || isTypeTag r "text"
        || isTypeTag r "media") = true then 1 else 0) := by
  cases hr : rlookup r "type" with
  | none => simp [isTypeTag, hr]
  | some v =>
    cases v with
    | jstr t =>
      by_cases h1 : t = "html"
      · simp [isTypeTag, hr, h1]
      · by_cases h2 : t = "json"
        · simp [isTypeTag, hr, h1, h2]
        · by_cases h3 : t = "text"
          · simp [isTypeTag, hr, h1, h2, h3]
          · by_cases h4 : t = "media"
            · simp [isTypeTag, hr, h1, h2, h3, h4]
            · simp [isTypeTag, hr, h1, h2, h3, h4]
    | jnull => simp [isTypeTag, hr]
    | jbool b => simp [isTypeTag, hr]
    | jnum n => simp [isTypeTag, hr]
    | jarr es => simp [isTypeTag, hr]
    | jobj fs => simp [isTypeTag, hr]

theorem countP_clean_tag (data : List Record) (s : String) :
    (data.map cleanRecord).countP (fun r => isTypeTag r s) =
      data.countP (fun r => isTypeTag r s) := by
  induction data with
  | nil => rfl
  | cons r tl ih =>
    simp only [List.map_cons, List.countP_cons, ih, isTypeTag_clean]

theorem count_four_tags (data : List Record) :
    data.countP (fun r => isTypeTag r "html") +
      data.countP (fun r => isTypeTag r "json") +
      data.countP (fun r => isTypeTag r "text") +
      data.countP (fun r => isTypeTag r "media") =
    data.countP (fun r => isTypeTag r "html" || isTypeTag r "json"
      || isTypeTag r "text" || isTypeTag r "media") := by
  induction data with
  | nil => simp
  | cons r tl ih =>
    simp only [List.countP_cons]
    have := tag_indicator r
    omega

/-!
### Concrete documents used by the claims
-/

/-- The end-to-end example document of the specification. -/
def c2doc : List Char :=
  "\x7b\"a\":1\x7d\n\x7b\"a\":2\x7d\nHello world this is text\n".toList

/-- A document whose single JSON object holds an explicit null. -/
def c1doc : List Char := "\x7b\"a\":null\x7d".toList

/-- The record list extracted from `c1doc` (oracles irrelevant: the
document has no HTML span). -/
def c1data : List Record :=
  runExtract (fun _ => JVal.jnull) (fun _ => 0) c1doc

/-- A document whose single JSON object carries fields literally named
`title` and `word_count`. -/
def c9doc : List Char :=
  "\x7b\"title\":\"Secret\",\"word_count\":99,\"a\":1\x7d\n".toList

/-!
### Claim theorems
-/

/-- Claim C1, counterexample: the record list extracted from the
document `'{"a":null}'` has one record, whose field `a` is present in
all records (k = n = 1), yet `infer_schema` reports it nullable because
the record holds an explicit null — contradicting `nullable == (k < n)`
as the claim states it. -/
theorem c1_counterexample :
    c1data = [[("a", JVal.jnull), ("type", JVal.jstr "json"),
      ("source_index", JVal.jstr "json_0")]] ∧
    (schemaEntry c1data "a").presentIn = presentCount c1data "a" ∧
    presentCount c1data "a" = 1 ∧ c1data.length = 1 ∧
    ¬((schemaEntry c1data "a").nullable = true ↔
      presentCount c1data "a" < c1data.length) := by
  refine ⟨by decide, rfl, by decide, by decide, ?_⟩
  intro hiff
  have : (1 : Nat) < 1 := by
    have h1 : (schemaEntry c1data "a").nullable = true := by decide
    have := hiff.1 h1
    simpa [show presentCount c1data "a" = 1 by decide,
      show c1data.length = 1 by decide] using this
  omega

/-- Claim C1, amended: for every schema entry of `infer_schema`,
`present_in` equals the number of records containing the key, and
`nullable` is true exactly when the key is missing from some record
(`k < n`) or some record holds an explicit null for it. -/
theorem c1_amended (data : List Record) (k : String) (e : SchemaEntry)
    (h : (k, e) ∈ inferSchemaMap data) :
    e.presentIn = presentCount data k ∧
    (e.nullable = true ↔
      (presentCount data k < data.length ∨
        ∃ r ∈ data, rlookup r k = some JVal.jnull)) := by
  have he : e = schemaEntry data k := by
    simp only [inferSchemaMap, List.mem_map] at h
    rcases h with ⟨k', _, heq⟩
    cases heq
    rfl
  subst he
  refine ⟨rfl, ?_⟩
  have hn : (schemaEntry data k).nullable = nullableB data k := rfl
  rw [hn, nullableB_iff]
  constructor
  · rintro ⟨r, hr, hnone | hnull⟩
    · exact Or.inl ((presentCount_lt_iff data k).2 ⟨r, hr, hnone⟩)
    · exact Or.inr ⟨r, hr, hnull⟩
  · rintro (hlt | ⟨r, hr, hnull⟩)
    · rcases (presentCount_lt_iff data k).1 hlt with ⟨r, hr, hnone⟩
      exact ⟨r, hr, Or.inl hnone⟩
    · exact ⟨r, hr, Or.inr hnull⟩

/-- Witness for `c1_amended` at a concrete record list. -/
theorem c1_amended_witness :
    ("a", schemaEntry [[("a", JVal.jnum 1)], [("b", JVal.jnull)]] "a")
        ∈ inferSchemaMap [[("a", JVal.jnum 1)], [("b", JVal.jnull)]] ∧
    ((schemaEntry [[("a", JVal.jnum 1)], [("b", JVal.jnull)]] "a").presentIn =
        presentCount [[("a", JVal.jnum 1)], [("b", JVal.jnull)]] "a" ∧
      ((schemaEntry [[("a", JVal.jnum 1)], [("b", JVal.jnull)]] "a").nullable
          = true ↔
        (presentCount [[("a", JVal.jnum 1)], [("b", JVal.jnull)]] "a" <
            [[("a", JVal.jnum 1)], [("b", JVal.jnull)]].length ∨
          ∃ r ∈ [[("a", JVal.jnum 1)], [("b", JVal.jnull)]],
            rlookup r "a" = some JVal.jnull))) :=
  ⟨by decide, c1_amended _ "a" _ (by decide)⟩

/-- Claim C2: on the document `'{"a":1}\n{"a":2}\nHello world this is
text\n'`, extraction yields exactly the records `json_0` (a = 1),
`json_1` (a = 2) and `text_0`, and the full run (detect, extract,
infer_schema, normalize) yields a three-row table with columns
`type, source_index, total_items, a`, `total_items = 3` on every row and
a null `a` cell on the text row — for every HTML-extraction oracle,
which the document never invokes. -/
theorem c2_end_to_end (tOra : List Char → JVal) (wOra : List Char → Nat) :
    runExtract tOra wOra c2doc =
      [[("a", JVal.jnum 1), ("type", JVal.jstr "json"),
        ("source_index", JVal.jstr "json_0")],
       [("a", JVal.jnum 2), ("type", JVal.jstr "json"),
        ("source_index", JVal.jstr "json_1")],
       [("type", JVal.jstr "text"),
        ("title", JVal.jstr "Hello world this is text"),
        ("word_count", JVal.jnum 5),
        ("source_index", JVal.jstr "text_0")]] ∧
    runTable tOra wOra c2doc =
      some ⟨["type", "source_index", "total_items", "a"],
        [[("a", JVal.jnum 1), ("type", JVal.jstr "json"),
          ("source_index", JVal.jstr "json_0"), ("total_items", JVal.jnum 3)],
         [("a", JVal.jnum 2), ("type", JVal.jstr "json"),
          ("source_index", JVal.jstr "json_1"), ("total_items", JVal.jnum 3)],
         [("type", JVal.jstr "text"), ("source_index", JVal.jstr "text_0"),
          ("a", JVal.jnull), ("total_items", JVal.jnum 3)]]⟩ := by
  have hd : detect_content_types c2doc =
      ⟨[], ["\x7b\"a\":1\x7d".toList, "\x7b\"a\":2\x7d".toList],
       ["Hello world this is text".toList], []⟩ := by decide
  constructor
  · simp only [runExtract, extractStep, initState, extract, hd, List.map_nil]
    decide
  · simp only [runTable, normalizeStep, inferSchemaStep, extractStep,
      initState, runExtract, extract, hd, List.map_nil]
    decide

/-- Claim C3: after the fill-forward of `infer_schema`, every record of
the list contains every field name appearing in at least one record,
with null filled in for each field the record originally lacked. -/
theorem c3_fill_forward (data : List Record) (r : Record) (hr : r ∈ data)
    (k : String) (hk : ∃ r' ∈ data, k ∈ recordKeys r') :
    fillAll data = data.map (fillRecord (allKeys data)) ∧
    k ∈ recordKeys (fillRecord (allKeys data) r) ∧
    (rlookup r k = none →
      rlookup (fillRecord (allKeys data) r) k = some JVal.jnull) := by
  have hak : k ∈ allKeys data := (mem_allKeys data k).2 hk
  refine ⟨rfl, ?_, ?_⟩
  · exact (mem_recordKeys_iff _ k).2 (fillRecord_isSome (allKeys data) r k hak)
  · intro hnone
    exact fillRecord_none (allKeys data) r k hak hnone

/-- Witness for `c3_fill_forward` at a concrete record list. -/
theorem c3_fill_forward_witness :
    [("a", JVal.jnum 1)] ∈ [[("a", JVal.jnum 1)], [("b", JVal.jstr "y")]] ∧
    (∃ r' ∈ [[("a", JVal.jnum 1)], [("b", JVal.jstr "y")]],
      "b" ∈ recordKeys r') ∧
    (fillAll [[("a", JVal.jnum 1)], [("b", JVal.jstr "y")]] =
        [[("a", JVal.jnum 1)], [("b", JVal.jstr "y")]].map
          (fillRecord (allKeys [[("a", JVal.jnum 1)], [("b", JVal.jstr "y")]])) ∧
      "b" ∈ recordKeys
        (fillRecord (allKeys [[("a", JVal.jnum 1)], [("b", JVal.jstr "y")]])
          [("a", JVal.jnum 1)]) ∧
      (rlookup [("a", JVal.jnum 1)] "b" = none →
        rlookup
          (fillRecord (allKeys [[("a", JVal.jnum 1)], [("b", JVal.jstr "y")]])
            [("a", JVal.jnum 1)]) "b" = some JVal.jnull)) :=
  ⟨by decide, ⟨[("b", JVal.jstr "y")], by decide⟩,
    c3_fill_forward _ _ (by decide) "b" ⟨[("b", JVal.jstr "y")], by decide⟩⟩

/-- Claim C4: for a document of newline-separated lines, each either a
syntactically valid single-level JSON object or free of opening braces,
with the object lines pairwise distinct, extraction produces exactly one
json-tagged record per object line, in first-occurrence order, with
`source_index` values `json_0 … json_{N-1}`. -/
theorem c4_json_detection (tOra : List Char → JVal) (wOra : List Char → Nat)
    (lines : List (List Char))
    (hline : ∀ l ∈ lines, '\n' ∉ l ∧ (isObjB l = true ∨ '\x7b' ∉ l))
    (hvalid : ∀ l ∈ lines, isObjB l = true → (jsonLoads l).isSome = true)
    (hnd : (lines.filter (fun l => isObjB l)).Nodup) :
    (extract tOra wOra (joinLines lines)).filter
        (fun r => isTypeTag r "json") =
      withIndices "json"
        ((lines.filter (fun l => isObjB l)).map extract_json) ∧
    ((extract tOra wOra (joinLines lines)).filter
        (fun r => isTypeTag r "json")).length =
      (lines.filter (fun l => isObjB l)).length ∧
    ∀ i, i < (lines.filter (fun l => isObjB l)).length →
      rlookup (((extract tOra wOra (joinLines lines)).filter
          (fun r => isTypeTag r "json")).getD i []) "source_index" =
        some (.jstr ("json_" ++ toString i)) ∧
      rlookup (((extract tOra wOra (joinLines lines)).filter
          (fun r => isTypeTag r "json")).getD i []) "type" =
        some (.jstr "json") := by
  have hdet : (detect_content_types (joinLines lines)).json =
      lines.filter (fun l => isObjB l) := by
    show detectJson (jsonFindall (joinLines lines)) = _
    rw [jsonFindall_joinLines lines hline]
    exact detectJson_all _ hnd
      (fun m hm => hvalid m (List.mem_of_mem_filter hm)
        (List.of_mem_filter hm))
  have hfil : (extract tOra wOra (joinLines lines)).filter
      (fun r => isTypeTag r "json") =
      withIndices "json"
        ((lines.filter (fun l => isObjB l)).map extract_json) := by
    rw [extract_filter_json, hdet]
  refine ⟨hfil, ?_, ?_⟩
  · rw [hfil, withIndices_length, List.length_map]
  · intro i hi
    have hi' : i < ((lines.filter (fun l => isObjB l)).map
        extract_json).length := by
      rw [List.length_map]; exact hi
    rw [hfil, withIndices_getD "json" _ i hi']
    constructor
    · rw [rlookup_setVal_self]
      have hstr : ("json" ++ "_" ++ toString i : String) =
          "json_" ++ toString i := by
        first
        | rfl
        | rw [← String.append_assoc]
      rw [hstr]
    · rw [rlookup_setVal_ne _ _ _ _ (by decide)]
      have hgd : ((lines.filter (fun l => isObjB l)).map
          extract_json).getD i [] =
          extract_json ((lines.filter (fun l => isObjB l)).getD i []) := by
        rw [List.getD_eq_getElem?_getD, List.getElem?_map,
          List.getElem?_eq_getElem hi]
        simp [List.getD_eq_getElem?_getD, List.getElem?_eq_getElem hi]
      rw [hgd]
      exact extract_json_type _

/-- Witness for `c4_json_detection` on a three-line document with two
distinct objects around a prose line. -/
theorem c4_json_detection_witness :
    (∀ l ∈ ["\x7b\"a\":1\x7d".toList, "hi there friend".toList,
        "\x7b\"b\":2\x7d".toList],
      '\n' ∉ l ∧ (isObjB l = true ∨ '\x7b' ∉ l)) ∧
    (∀ l ∈ ["\x7b\"a\":1\x7d".toList, "hi there friend".toList,
        "\x7b\"b\":2\x7d".toList],
      isObjB l = true → (jsonLoads l).isSome = true) ∧
    (["\x7b\"a\":1\x7d".toList, "hi there friend".toList,
        "\x7b\"b\":2\x7d".toList].filter (fun l => isObjB l)).Nodup ∧
    ((extract (fun _ => JVal.jnull) (fun _ => 0)
        (joinLines ["\x7b\"a\":1\x7d".toList, "hi there friend".toList,
          "\x7b\"b\":2\x7d".toList])).filter
        (fun r => isTypeTag r "json") =
      withIndices "json"
        ((["\x7b\"a\":1\x7d".toList, "hi there friend".toList,
          "\x7b\"b\":2\x7d".toList].filter (fun l => isObjB l)).map
          extract_json)) :=
  ⟨by decide, by decide, by decide,
    (c4_json_detection (fun _ => JVal.jnull) (fun _ => 0)
      ["\x7b\"a\":1\x7d".toList, "hi there friend".toList,
        "\x7b\"b\":2\x7d".toList]
      (by decide) (by decide) (by decide)).1⟩

/-- Claim C5: the table returned by `normalize` never contains a column
named `word_count` or `title`, while the schema descriptor computed by
`infer_schema` from the same (pre-strip) records does list those field
names whenever any record contained them. -/
theorem c5_artifact_columns (data : List Record) (t : Table)
    (h : normalize data = some t) :
    "word_count" ∉ t.cols ∧ "title" ∉ t.cols ∧
    ((∃ r ∈ data, "word_count" ∈ recordKeys r) →
      "word_count" ∈ (inferSchemaMap data).map Prod.fst) ∧
    ((∃ r ∈ data, "title" ∈ recordKeys r) →
      "title" ∈ (inferSchemaMap data).map Prod.fst) := by
  have hnotin : ∀ c : String, c = "word_count" ∨ c = "title" →
      c ∉ t.cols := by
    intro c hc hmem
    rcases normalize_some data t h with ⟨_, hcase⟩
    rcases hcase with ⟨_, rfl⟩ | ⟨_, rfl⟩
    · simp at hmem
    · rcases mem_nzFinalCols data c hmem with h1 | h1 | h1 | h1
      · rcases hc with rfl | rfl <;> simp at h1
      · rcases hc with rfl | rfl <;> simp at h1
      · rcases hc with rfl | rfl <;> simp at h1
      · rcases mem_nzCols0 data c h1 with h2 | h2 | h2
        · rcases hc with rfl | rfl <;> simp at h2
        · rcases hc with rfl | rfl <;> simp at h2
        · rcases h2 with ⟨r0, _, hkey⟩
          have := (mem_recordKeys_clean r0 c).1 hkey
          rcases hc with rfl | rfl
          · exact this.2.1 rfl
          · exact this.2.2 rfl
  refine ⟨hnotin _ (Or.inl rfl), hnotin _ (Or.inr rfl), ?_, ?_⟩
  · rintro ⟨r, hr, hk⟩
    rw [inferSchemaMap_keys]
    exact (mem_allKeys data _).2 ⟨r, hr, hk⟩
  · rintro ⟨r, hr, hk⟩
    rw [inferSchemaMap_keys]
    exact (mem_allKeys data _).2 ⟨r, hr, hk⟩

/-- Witness for `c5_artifact_columns` at a concrete record list holding
both artifact fields. -/
theorem c5_artifact_columns_witness :
    normalize [[("type", JVal.jstr "text"), ("title", JVal.jstr "hello"),
        ("word_count", JVal.jnum 2), ("source_index", JVal.jstr "text_0")]] =
      some ⟨["type", "source_index", "total_items"],
        [[("type", JVal.jstr "text"), ("source_index", JVal.jstr "text_0"),
          ("total_items", JVal.jnum 1)]]⟩ ∧
    ("word_count" ∉ (⟨["type", "source_index", "total_items"],
        [[("type", JVal.jstr "text"), ("source_index", JVal.jstr "text_0"),
          ("total_items", JVal.jnum 1)]]⟩ : Table).cols ∧
      "title" ∉ (⟨["type", "source_index", "total_items"],
        [[("type", JVal.jstr "text"), ("source_index", JVal.jstr "text_0"),
          ("total_items", JVal.jnum 1)]]⟩ : Table).cols ∧
      ((∃ r ∈ [[("type", JVal.jstr "text"), ("title", JVal.jstr "hello"),
          ("word_count", JVal.jnum 2), ("source_index", JVal.jstr "text_0")]],
          "word_count" ∈ recordKeys r) →
        "word_count" ∈ (inferSchemaMap
          [[("type", JVal.jstr "text"), ("title", JVal.jstr "hello"),
            ("word_count", JVal.jnum 2),
            ("source_index", JVal.jstr "text_0")]]).map Prod.fst) ∧
      ((∃ r ∈ [[("type", JVal.jstr "text"), ("title", JVal.jstr "hello"),
          ("word_count", JVal.jnum 2), ("source_index", JVal.jstr "text_0")]],
          "title" ∈ recordKeys r) →
        "title" ∈ (inferSchemaMap
          [[("type", JVal.jstr "text"), ("title", JVal.jstr "hello"),
            ("word_count", JVal.jnum 2),
            ("source_index", JVal.jstr "text_0")]]).map Prod.fst)) :=
  ⟨by decide, c5_artifact_columns _ _ (by decide)⟩

/-- Claim C6: in every non-empty table produced by `normalize`, the
`total_items` cell of every row holds the same integer, equal to the
table's row count. -/
theorem c6_total_items (data : List Record) (t : Table)
    (h : normalize data = some t) (hne : t.rows ≠ []) :
    ∀ r ∈ t.rows, rlookup r "total_items" = some (.jnum t.rows.length) := by
  rcases normalize_some data t h with ⟨_, hcase⟩
  rcases hcase with ⟨_, rfl⟩ | ⟨_, rfl⟩
  · simp at hne
  · intro r hr
    show rlookup r "total_items" = some (.jnum (nzRows2 data).length)
    rw [nzRows2_length]
    exact nzRows2_total data r hr

/-- Witness for `c6_total_items` at a concrete record list. -/
theorem c6_total_items_witness :
    normalize [[("type", JVal.jstr "json"), ("source_index", JVal.jstr "json_0"),
        ("a", JVal.jnum 5)]] =
      some ⟨["type", "source_index", "total_items", "a"],
        [[("type", JVal.jstr "json"), ("source_index", JVal.jstr "json_0"),
          ("a", JVal.jnum 5), ("total_items", JVal.jnum 1)]]⟩ ∧
    (⟨["type", "source_index", "total_items", "a"],
        [[("type", JVal.jstr "json"), ("source_index", JVal.jstr "json_0"),
          ("a", JVal.jnum 5), ("total_items", JVal.jnum 1)]]⟩ : Table).rows
      ≠ [] ∧
    ∀ r ∈ (⟨["type", "source_index", "total_items", "a"],
        [[("type", JVal.jstr "json"), ("source_index", JVal.jstr "json_0"),
          ("a", JVal.jnum 5), ("total_items", JVal.jnum 1)]]⟩ : Table).rows,
      rlookup r "total_items" =
        some (.jnum (⟨["type", "source_index", "total_items", "a"],
          [[("type", JVal.jstr "json"), ("source_index", JVal.jstr "json_0"),
            ("a", JVal.jnum 5),
            ("total_items", JVal.jnum 1)]]⟩ : Table).rows.length) :=
  ⟨by decide, by decide,
    c6_total_items
      [[("type", JVal.jstr "json"), ("source_index", JVal.jstr "json_0"),
        ("a", JVal.jnum 5)]] _ (by decide) (by decide)⟩

/-- Claim C8: records whose type value is none of the four fixed tags
contribute no row to the output of `normalize`, and the per-type row
groups appear in the fixed order html, json, text, media (absent types
skipped): the sequence of `type` cells is the per-tag counts laid out in
that order, and the row count equals the number of records carrying one
of the four tags. -/
theorem c8_fixed_tag_groups (data : List Record) (t : Table)
    (h : normalize data = some t) :
    t.rows.map (fun r => pyGet r "type") =
      tagOrder.flatMap (fun s =>
        List.replicate (data.countP (fun r => isTypeTag r s))
          (JVal.jstr s)) ∧
    t.rows.length = data.countP (fun r =>
      isTypeTag r "html" || isTypeTag r "json" || isTypeTag r "text"
        || isTypeTag r "media") := by
  have hcounts : ∀ s : String,
      (data.map cleanRecord).countP (fun r => isTypeTag r s) =
        data.countP (fun r => isTypeTag r s) := countP_clean_tag data
  rcases normalize_some data t h with ⟨_, hcase⟩
  rcases hcase with ⟨he, rfl⟩ | ⟨he, rfl⟩
  · have hempty : ∀ s ∈ tagOrder,
        bucketFor (data.map cleanRecord) s = [] := by
      intro s hs
      by_contra hne
      have hbin : bucketFor (data.map cleanRecord) s ∈ nzBuckets data := by
        rw [nzBuckets, List.mem_filter]
        refine ⟨List.mem_map.2 ⟨s, hs, rfl⟩, ?_⟩
        simpa [List.isEmpty_iff] using hne
      rcases List.exists_mem_of_ne_nil _ hne with ⟨r, hr⟩
      have hrin : r ∈ nzRows0 data :=
        List.mem_flatMap.2 ⟨_, hbin, hr⟩
      rw [List.isEmpty_iff.1 he] at hrin
      simp at hrin
    have hc0 : ∀ s ∈ tagOrder,
        data.countP (fun r => isTypeTag r s) = 0 := by
      intro s hs
      rw [← hcounts s, List.countP_eq_length_filter]
      rw [show List.filter (fun r => isTypeTag r s) (data.map cleanRecord) =
        bucketFor (data.map cleanRecord) s from rfl, hempty s hs]
      rfl
    constructor
    · simp only [tagOrder, List.flatMap_cons, List.flatMap_nil]
      rw [hc0 "html" (by decide), hc0 "json" (by decide),
        hc0 "text" (by decide), hc0 "media" (by decide)]
      rfl
    · have hsum := count_four_tags data
      rw [hc0 "html" (by decide), hc0 "json" (by decide),
        hc0 "text" (by decide), hc0 "media" (by decide)] at hsum
      show ([] : List Record).length = _
      rw [List.length_nil]
      omega
  · have hmap2 : (nzRows2 data).map (fun r => pyGet r "type") =
        (nzRows0 data).map (fun r => pyGet r "type") := by
      rw [nzRows2, List.map_map, List.map_map]
      refine List.map_congr_left ?_
      intro r _
      show pyGet (setVal (setVal r "total_items" _) "total_items" _) "type"
        = pyGet r "type"
      rw [pyGet_setVal_ne _ _ _ _ (by decide),
        pyGet_setVal_ne _ _ _ _ (by decide)]
    have hflat : nzRows0 data =
        tagOrder.flatMap (bucketFor (data.map cleanRecord)) := by
      rw [nzRows0, nzBuckets, flatMap_id_filter_nonempty]
      induction tagOrder with
      | nil => rfl
      | cons s tl ih => simp [List.flatMap_cons, ih]
    have hmap0 : (nzRows0 data).map (fun r => pyGet r "type") =
        tagOrder.flatMap (fun s =>
          List.replicate (data.countP (fun r => isTypeTag r s))
            (JVal.jstr s)) := by
      rw [hflat]
      simp only [tagOrder, List.flatMap_cons, List.flatMap_nil,
        List.map_append, List.append_nil]
      rw [bucket_types _ "html" (by decide), bucket_types _ "json" (by decide),
        bucket_types _ "text" (by decide), bucket_types _ "media" (by decide),
        hcounts "html", hcounts "json", hcounts "text", hcounts "media"]
    constructor
    · show (nzRows2 data).map (fun r => pyGet r "type") = _
      rw [hmap2, hmap0]
    · show (nzRows2 data).length = _
      have hlen := congrArg List.length (hmap2.trans hmap0)
      rw [List.length_map] at hlen
      rw [hlen]
      simp only [tagOrder, List.flatMap_cons, List.flatMap_nil,
        List.length_append, List.length_replicate, List.length_nil]
      have := count_four_tags data
      omega

/-- Witness for `c8_fixed_tag_groups` at a record list containing an
unknown type tag. -/
theorem c8_fixed_tag_groups_witness :
    normalize [[("type", JVal.jstr "weird"), ("source_index", JVal.jstr "x")],
        [("type", JVal.jstr "json"), ("source_index", JVal.jstr "json_0")]] =
      some ⟨["type", "source_index", "total_items"],
        [[("type", JVal.jstr "json"), ("source_index", JVal.jstr "json_0"),
          ("total_items", JVal.jnum 1)]]⟩ ∧
    ((⟨["type", "source_index", "total_items"],
        [[("type", JVal.jstr "json"), ("source_index", JVal.jstr "json_0"),
          ("total_items", JVal.jnum 1)]]⟩ : Table).rows.map
        (fun r => pyGet r "type") =
      tagOrder.flatMap (fun s =>
        List.replicate
          ([[("type", JVal.jstr "weird"), ("source_index", JVal.jstr "x")],
            [("type", JVal.jstr "json"),
              ("source_index", JVal.jstr "json_0")]].countP
            (fun r => isTypeTag r s)) (JVal.jstr s)) ∧
      (⟨["type", "source_index", "total_items"],
        [[("type", JVal.jstr "json"), ("source_index", JVal.jstr "json_0"),
          ("total_items", JVal.jnum 1)]]⟩ : Table).rows.length =
        [[("type", JVal.jstr "weird"), ("source_index", JVal.jstr "x")],
          [("type", JVal.jstr "json"),
            ("source_index", JVal.jstr "json_0")]].countP
          (fun r => isTypeTag r "html" || isTypeTag r "json"
            || isTypeTag r "text" || isTypeTag r "media")) :=
  ⟨by decide, c8_fixed_tag_groups _ _ (by decide)⟩

/-- Claim C7, counterexample: a list value is not always preserved under
its key — when a nested object flattens onto a colliding `_`-joined path
(here `a_b`), `dict(items)` lets the later item overwrite the list. -/
theorem c7_counterexample :
    ("a_b", JVal.jarr (.cons (JVal.jnum 1) .nil)) ∈
      (JObj.cons "a_b" (JVal.jarr (.cons (JVal.jnum 1) .nil))
        (JObj.cons "a" (JVal.jobj (JObj.cons "b" (JVal.jnum 2) .nil))
          .nil)).toList ∧
    flatten_dict
        (JObj.cons "a_b" (JVal.jarr (.cons (JVal.jnum 1) .nil))
          (JObj.cons "a" (JVal.jobj (JObj.cons "b" (JVal.jnum 2) .nil))
            .nil)) = [("a_b", JVal.jnum 2)] ∧
    ("a_b", JVal.jarr (.cons (JVal.jnum 1) .nil)) ∉
      flatten_dict
        (JObj.cons "a_b" (JVal.jarr (.cons (JVal.jnum 1) .nil))
          (JObj.cons "a" (JVal.jobj (JObj.cons "b" (JVal.jnum 2) .nil))
            .nil)) := by
  refine ⟨by decide, by decide, by decide⟩

/-- Claim C7, amended: `flatten_dict` is the identity on every
already-flat object; `{"a":{"b":1}}` flattens to `{"a_b":1}`; a list
value is preserved verbatim under its key provided no other flattened
key path collides with it (the flattened item keys are duplicate-free);
and `flatten_dict` is idempotent on every object. -/
theorem c7_amended (d : JObj) :
    (d.keys.Nodup → (∀ kv ∈ d.toList, isObjV kv.2 = false) →
      flatten_dict d = d.toList) ∧
    flatten_dict (JObj.cons "a" (JVal.jobj (JObj.cons "b" (JVal.jnum 1) .nil))
      .nil) = [("a_b", JVal.jnum 1)] ∧
    (((flattenItems d "").map Prod.fst).Nodup →
      ∀ (k : String) (xs : JArr), (k, JVal.jarr xs) ∈ d.toList →
        (k, JVal.jarr xs) ∈ flatten_dict d) ∧
    flatten_dict (JObj.ofList (flatten_dict d)) = flatten_dict d := by
  have flat_id : ∀ d' : JObj, JObj.keys d' |>.Nodup →
      (∀ kv ∈ d'.toList, isObjV kv.2 = false) →
      flatten_dict d' = d'.toList := by
    intro d' hnd hflat
    rw [flatten_dict, flattenItems_flat d' hflat, dictOfItems_self _ hnd]
  refine ⟨flat_id d, by decide, ?_, ?_⟩
  · intro hnd k xs hmem
    rw [flatten_dict, dictOfItems_self _ hnd]
    exact mem_flattenItems_of_arr d k xs hmem
  · have hout_nodup : (recordKeys (flatten_dict d)).Nodup :=
      dictOfItems_keys_nodup _
    have hout_flat : ∀ kv ∈ (flatten_dict d), isObjV kv.2 = false := by
      intro kv hkv
      have := mem_dictOfItems _ kv hkv
      exact flattenItemsF_no_obj _ d "" kv this
    have h1 : flatten_dict (JObj.ofList (flatten_dict d)) =
        (JObj.ofList (flatten_dict d)).toList := by
      refine flat_id _ ?_ ?_
      · rw [JObj.keys, toList_ofList]
        exact hout_nodup
      · rw [toList_ofList]
        exact hout_flat
    rw [h1, toList_ofList]

/-- Witness for `c7_amended` at a concrete flat object holding a list
value. -/
theorem c7_amended_witness :
    (JObj.keys (JObj.cons "x" (JVal.jarr (.cons (JVal.jnum 7) .nil))
      .nil)).Nodup ∧
    (∀ kv ∈ (JObj.cons "x" (JVal.jarr (.cons (JVal.jnum 7) .nil))
      .nil).toList, isObjV kv.2 = false) ∧
    ((flattenItems (JObj.cons "x" (JVal.jarr (.cons (JVal.jnum 7) .nil))
      .nil) "").map Prod.fst).Nodup ∧
    ("x", JVal.jarr (.cons (JVal.jnum 7) .nil)) ∈
      (JObj.cons "x" (JVal.jarr (.cons (JVal.jnum 7) .nil)) .nil).toList ∧
    flatten_dict (JObj.cons "x" (JVal.jarr (.cons (JVal.jnum 7) .nil)) .nil) =
      (JObj.cons "x" (JVal.jarr (.cons (JVal.jnum 7) .nil)) .nil).toList ∧
    ("x", JVal.jarr (.cons (JVal.jnum 7) .nil)) ∈
      flatten_dict (JObj.cons "x" (JVal.jarr (.cons (JVal.jnum 7) .nil))
        .nil) :=
  ⟨by decide, by decide, by decide, by decide,
    (c7_amended _).1 (by decide) (by decide),
    (c7_amended _).2.2.1 (by decide) "x" _ (by decide)⟩

/-- Claim C9: the artifact strip of `normalize` removes the keys
`word_count` and `title` from every record regardless of the record's
type or the field's origin; concretely, a JSON object carrying fields
literally named `title` and `word_count` is extracted with them but the
final table contains neither column. -/
theorem c9_strip_all_types (tOra : List Char → JVal)
    (wOra : List Char → Nat) :
    (∀ r : Record, recordKeys (cleanRecord r) =
      (recordKeys r).filter (fun k => k ≠ "word_count" && k ≠ "title")) ∧
    runExtract tOra wOra c9doc =
      [[("title", JVal.jstr "Secret"), ("word_count", JVal.jnum 99),
        ("a", JVal.jnum 1), ("type", JVal.jstr "json"),
        ("source_index", JVal.jstr "json_0")]] ∧
    runTable tOra wOra c9doc =
      some ⟨["type", "source_index", "total_items", "a"],
        [[("a", JVal.jnum 1), ("type", JVal.jstr "json"),
          ("source_index", JVal.jstr "json_0"),
          ("total_items", JVal.jnum 1)]]⟩ := by
  have hd : detect_content_types c9doc =
      ⟨[], ["\x7b\"title\":\"Secret\",\"word_count\":99,\"a\":1\x7d".toList],
       [], []⟩ := by decide
  refine ⟨?_, ?_, ?_⟩
  · intro r
    simp only [cleanRecord, recordKeys, List.filter_map, Function.comp]
    rfl
  · simp only [runExtract, extractStep, initState, extract, hd, List.map_nil]
    decide
  · simp only [runTable, normalizeStep, inferSchemaStep, extractStep,
      initState, runExtract, extract, hd, List.map_nil]
    decide

/-- Claim C10: `normalize` reads the stored record list but never
mutates it — the artifact strip builds fresh copies (`cleanRecord`
filters into a new record), the source method assigns no attribute, and
so the pipeline state after `normalize` is the state before it,
including every stored `title` and `word_count` field. -/
theorem c10_normalize_frame (s : ETLState) :
    (normalizeStep s).1 = s ∧
    (normalizeStep s).1.extracted_data = s.extracted_data :=
  ⟨rfl, rfl⟩

end ETL
